import Mathlib

/-!
Verification of the SECS/GEM log-analysis pipeline (`log_analyzer.py`).

The Python source works over pandas DataFrames.  We embed it shallowly:

* a DataFrame becomes a `Frame`: a list of `Row`s plus one boolean per
  optional column recording whether the column exists at all (pandas
  raises `KeyError` on access to a missing column, and the source guards
  several analyses on `col in df.columns`);
* timestamps become `Int` (microseconds; `pd.Timedelta(minutes=m)` is
  `m * 60000000`), float columns become `ℚ` (an exact idealization of
  IEEE doubles; none of the statements proved here depend on rounding);
* `NaN` cells become `none`;
* pandas column operations (`ffill`, `bfill`, `sort_values`, `groupby`,
  `drop_duplicates`, …) become explicit list transformations.  All
  pandas sorts used by the source are modeled with the stable
  `List.insertionSort` (`sort_values` on several keys uses a stable
  lexsort; on a single key the tie order is not specified by pandas, so
  any stable choice is a sound model of everything stated below).

Each analyzer of the source is translated to a Lean definition of the
same name, and the claims about the spec are settled as theorems at the
end of the file.
-/

namespace LogAnalyzer

/-! ## Generic column fills (pandas `Series.ffill` / `Series.bfill`) -/

/-- Fold a column prefix to its last non-null value, starting from carry `c`. -/
def lastSomeFrom (c : Option α) (l : List (Option α)) : Option α :=
  l.foldl (fun a x => match x with | some v => some v | none => a) c

/-- First non-null value of a column suffix. -/
def firstSome : List (Option α) → Option α
  | [] => none
  | some v :: _ => some v
  | none :: rest => firstSome rest

/-- `Series.ffill` with carry `c`: every null takes the nearest preceding
non-null value (or the carry when none exists). -/
def ffillList (c : Option α) : List (Option α) → List (Option α)
  | [] => []
  | some v :: rest => some v :: ffillList (some v) rest
  | none :: rest => c :: ffillList c rest

/-- `Series.bfill`: every null takes the nearest following non-null value. -/
def bfillList : List (Option α) → List (Option α)
  | [] => []
  | some v :: rest => some v :: bfillList rest
  | none :: rest => firstSome rest :: bfillList rest

theorem length_ffillList (c : Option α) (l : List (Option α)) :
    (ffillList c l).length = l.length := by
  induction l generalizing c with
  | nil => rfl
  | cons x rest ih => cases x <;> simp [ffillList, ih]

theorem length_bfillList (l : List (Option α)) :
    (bfillList l).length = l.length := by
  induction l with
  | nil => rfl
  | cons x rest ih => cases x <;> simp [bfillList, ih]

theorem ffillList_getElem? (c : Option α) (l : List (Option α)) (i : Nat)
    (hi : i < l.length) :
    (ffillList c l)[i]? = some (lastSomeFrom c (l.take (i + 1))) := by
  induction l generalizing c i with
  | nil => simp at hi
  | cons x rest ih =>
    cases x with
    | some v =>
      cases i with
      | zero => simp [ffillList, lastSomeFrom]
      | succ j =>
        simp only [ffillList, List.getElem?_cons_succ, List.take_succ_cons]
        rw [ih (some v) j (by simpa using hi)]
        simp [lastSomeFrom]
    | none =>
      cases i with
      | zero => simp [ffillList, lastSomeFrom]
      | succ j =>
        simp only [ffillList, List.getElem?_cons_succ, List.take_succ_cons]
        rw [ih c j (by simpa using hi)]
        simp [lastSomeFrom]

theorem bfillList_getElem? (l : List (Option α)) (i : Nat) (hi : i < l.length) :
    (bfillList l)[i]? = some (firstSome (l.drop i)) := by
  induction l generalizing i with
  | nil => simp at hi
  | cons x rest ih =>
    cases i with
    | zero => cases x <;> simp [bfillList, firstSome]
    | succ j =>
      cases x <;>
        · simp only [bfillList, List.getElem?_cons_succ, List.drop_succ_cons]
          exact ih j (by simpa using hi)

/-! ## Strings: Python `in` / `str.contains` on fixed literal patterns -/

/-- `pat` occurs as a contiguous substring of `s` (character lists). -/
def hasSub (pat : List Char) : List Char → Bool
  | [] => pat.isEmpty
  | c :: rest => pat.isPrefixOf (c :: rest) || hasSub pat rest

/-- `str.contains(pat)` on a nullable cell, for patterns without regex
metacharacters, `case=True`; `na=False` (a null message never matches). -/
def strContains (m : Option String) (pat : String) : Bool :=
  m.elim false fun s => hasSub pat.data s.data

/-- Case-insensitive variant (`case=False`), modeled by uppercasing both
sides (the source only uses ASCII keyword patterns). -/
def strContainsCI (m : Option String) (pat : String) : Bool :=
  m.elim false fun s =>
    hasSub (pat.data.map Char.toUpper) (s.data.map Char.toUpper)

/-! ## The record/frame data model -/

/-- One row of the enriched DataFrame.  `idx` is the pandas row index
(assigned in original line order by `pd.DataFrame(parsed_data)` and kept
through every sort), `ts` the parsed `timestamp`, and the remaining
fields the nullable cells of the named columns. -/
structure Row where
  idx : Nat := 0
  ts : Int := 0
  msg : Option String := none
  tid : Option ℚ := none
  msgName : Option String := none
  ptime : Option ℚ := none
  opId : Option String := none
  magId : Option String := none
  lotId : Option String := none
  panelId : Option String := none
  portId : Option String := none
  srcPortId : Option String := none
  dstPortId : Option String := none
  ctrlChange : Option String := none
  ctrl : Option String := none
deriving DecidableEq

/-- A DataFrame: its rows plus, for each optional column the source ever
touches by name, whether the column is present (`'X' in df.columns`).
`timestamp` always exists on a frame produced by the parser. -/
structure Frame where
  rows : List Row := []
  hasMessage : Bool := false
  hasTID : Bool := false
  hasMsgName : Bool := false
  hasPtime : Bool := false
  hasOp : Bool := false
  hasMag : Bool := false
  hasLot : Bool := false
  hasPort : Bool := false
  hasSrc : Bool := false
  hasDst : Bool := false
  hasCtrl : Bool := false
deriving DecidableEq

/-! ## Sort orders used by the source

`df.sort_values(by=['TransactionID', 'timestamp'])` sorts
lexicographically with null `TransactionID` last (`na_position='last'`),
stably; `sort_values(by='timestamp')` sorts by timestamp. -/

/-- Null-last value order on the `TransactionID` column. -/
def tidKey (t : Option ℚ) : WithTop ℚ :=
  t.elim ⊤ fun q => (q : WithTop ℚ)

/-- The `TransactionID` sort key of a row: nulls compare greatest. -/
def tidTop (r : Row) : WithTop ℚ :=
  tidKey r.tid

/-- Lexicographic order (`TransactionID` nulls-last, then `timestamp`). -/
def tidTsLe (a b : Row) : Prop :=
  tidTop a < tidTop b ∨ (tidTop a = tidTop b ∧ a.ts ≤ b.ts)

instance : DecidableRel tidTsLe := fun a b => by
  unfold tidTsLe; infer_instance

instance : IsTrans Row tidTsLe := by
  constructor
  intro a b c hab hbc
  rcases hab with h1 | ⟨h1, h1'⟩ <;> rcases hbc with h2 | ⟨h2, h2'⟩
  · exact Or.inl (lt_trans h1 h2)
  · exact Or.inl (h2 ▸ h1)
  · exact Or.inl (h1 ▸ h2)
  · exact Or.inr ⟨h1.trans h2, h1'.trans h2'⟩

instance : IsTotal Row tidTsLe := by
  constructor
  intro a b
  rcases lt_trichotomy (tidTop a) (tidTop b) with h | h | h
  · exact Or.inl (Or.inl h)
  · rcases le_total a.ts b.ts with h' | h'
    · exact Or.inl (Or.inr ⟨h, h'⟩)
    · exact Or.inr (Or.inr ⟨h.symm, h'⟩)
  · exact Or.inr (Or.inl h)

/-- Timestamp order for the single-key sorts. -/
def tsLe (a b : Row) : Prop := a.ts ≤ b.ts

instance : DecidableRel tsLe := fun a b => by
  unfold tsLe; infer_instance

instance : IsTrans Row tsLe := ⟨fun _ _ _ h h' => le_trans h h'⟩

instance : IsTotal Row tsLe := ⟨fun a b => le_total a.ts b.ts⟩

/-! ## Per-column operations on row lists -/

/-- Write a column back into the rows, positionwise. -/
def setCol (set : Row → Option α → Row) : List Row → List (Option α) → List Row
  | [], _ => []
  | _ :: _, [] => []
  | r :: rs, v :: vs => set r v :: setCol set rs vs

/-- `df[col] = df[col].ffill()` for one column. -/
def fillCol (get : Row → Option α) (set : Row → Option α → Row)
    (rows : List Row) : List Row :=
  setCol set rows (ffillList none (rows.map get))

/-! ## The field-extraction regexes of `clean_and_enrich_data`

The source extracts secondary fields from the `Message` text with
`Series.str.extract`, i.e. the first (leftmost) match of a fixed Python
regex; a non-match yields null.  The patterns only use literals,
`(?:' | >\s*)` separators, `\d+`, `\w+`, lazy `(.*?)"`, and `[\d.-]+`,
so each is translated to a deterministic character-list matcher.
`\d`/`\w`/`\s` are modeled at ASCII (the logs this tool parses are
ASCII); messages contain no newline because the file was split into
lines before parsing. -/

/-- The apostrophe character (to keep source literals readable). -/
def apos : Char := Char.ofNat 39

/-- Word character for `\w` (ASCII). -/
def isWordChar (c : Char) : Bool := c.isAlphanum || c = '_'

/-- Character class `[\d.-]` of the process-time pattern. -/
def isNumChar (c : Char) : Bool := c.isDigit || c = '.' || c = '-'

/-- Match a literal, returning the remainder. -/
def dropLit : List Char → List Char → Option (List Char)
  | [], s => some s
  | _ :: _, [] => none
  | c :: cs, d :: ds => if d = c then dropLit cs ds else none

/-- The separator `(?:' | >\s*)` between a tag and its typed value. -/
def matchSep (s : List Char) : Option (List Char) :=
  match s with
  | c1 :: ' ' :: rest =>
    if c1 = apos then some rest
    else none
  | ' ' :: '>' :: rest => some (rest.dropWhile Char.isWhitespace)
  | _ => none

/-- `<A\[\d+\] "(…)"` — the bracketed typed literal carrying the value;
`wordOnly` selects `(\w+)` versus the lazy `(.*?)` capture. -/
def matchAngle (wordOnly : Bool) (s : List Char) : Option String := do
  let s1 ← dropLit ['<', 'A', '['] s
  let ds := s1.takeWhile Char.isDigit
  if ds.isEmpty then none else
  let s2 ← dropLit [']', ' ', '"'] (s1.drop ds.length)
  let w := if wordOnly then s2.takeWhile isWordChar
           else s2.takeWhile (fun c => c ≠ '"')
  if wordOnly && w.isEmpty then none else
  if (s2.drop w.length).head? = some '"' then some (String.mk w) else none

/-- Try a matcher at every start position, leftmost match first
(`re.search` semantics of `str.extract`). -/
def scanFor (f : List Char → Option String) : List Char → Option String
  | [] => none
  | c :: rest =>
    match f (c :: rest) with
    | some v => some v
    | none => scanFor f rest

/-- `TAG(?:' | >\s*)<A\[\d+\] "(…)"` at one position. -/
def matchTagAt (tag : List Char) (wordOnly : Bool) (s : List Char) :
    Option String := do
  let s1 ← dropLit tag s
  let s2 ← matchSep s1
  matchAngle wordOnly s2

/-- `str.extract` for the identifier patterns (OPERATORID, MAGAZINEID,
LOTID, PORTID, SRCPORTID, DESTPORTID). -/
def extractTagged (tag : String) (wordOnly : Bool) (m : Option String) :
    Option String :=
  m.bind fun s => scanFor (matchTagAt tag.data wordOnly) s.data

/-- `PanelID<A\[\d+\] "(.*?)"` (no separator in this one pattern). -/
def extractPanel (m : Option String) : Option String :=
  m.bind fun s =>
    scanFor (fun l => (dropLit "PanelID".data l).bind (matchAngle false)) s.data

/-- `(LOCAL|REMOTE)`: leftmost occurrence of either marker, `LOCAL`
preferred at equal positions (regex alternation order). -/
def extractCtrl (m : Option String) : Option String :=
  m.bind fun s =>
    scanFor (fun l =>
      match dropLit "LOCAL".data l with
      | some _ => some "LOCAL"
      | none => (dropLit "REMOTE".data l).map fun _ => "REMOTE") s.data

/-- `Process time of the transaction\(ID=\d+\) is ([\d.-]+) msec`:
the captured `[\d.-]+` run. -/
def matchPtimeAt (s : List Char) : Option String := do
  let s1 ← dropLit "Process time of the transaction(ID=".data s
  let ds := s1.takeWhile Char.isDigit
  if ds.isEmpty then none else
  let s2 ← dropLit ") is ".data (s1.drop ds.length)
  let num := s2.takeWhile isNumChar
  if num.isEmpty then none else
  (dropLit " msec".data (s2.drop num.length)).map fun _ => String.mk num

/-- Sum value of a run of ASCII digits. -/
def digitsToNat (ds : List Char) : Nat :=
  ds.foldl (fun a c => a * 10 + (c.toNat - 48)) 0

/-- `float(…)` on the captured `[\d.-]+` text, as an exact rational:
optional sign, integer digits, optional fraction.  Captures `float()`
would reject (e.g. `--`, `1.2.3`) are modeled as null; on such inputs
the source raises from `astype(float)` instead, a path none of the
claims below exercises. -/
def parseRatDec (s : String) : Option ℚ :=
  let core : List Char → Option ℚ := fun l =>
    let ip := l.takeWhile Char.isDigit
    match l.drop ip.length with
    | [] => if ip.isEmpty then none else some (digitsToNat ip : ℚ)
    | '.' :: fr =>
      if fr.all Char.isDigit && !(ip.isEmpty && fr.isEmpty) then
        some ((digitsToNat ip : ℚ) + (digitsToNat fr : ℚ) / (10 : ℚ) ^ fr.length)
      else none
    | _ => none
  match s.data with
  | '-' :: rest => (core rest).map fun q => -q
  | l => core l

/-- `ProcessTime_ms` extraction composed with the float cast. -/
def extractPtime (m : Option String) : Option ℚ :=
  (m.bind fun s => scanFor matchPtimeAt s.data).bind parseRatDec

/-! ## `clean_and_enrich_data` -/

/-- Lines 49–59 of the source: per-row extraction of `ProcessTime_ms`
and the engineering identifiers from `Message`.  (`str.extract`
overwrites the whole column; each row is independent.) -/
def extractCols (rows : List Row) : List Row :=
  rows.map fun r =>
    { r with
      ptime := extractPtime r.msg
      opId := extractTagged "OPERATORID" true r.msg
      magId := extractTagged "MAGAZINEID" true r.msg
      lotId := extractTagged "LOTID" false r.msg
      panelId := extractPanel r.msg
      portId := extractTagged "PORTID" true r.msg
      srcPortId := extractTagged "SRCPORTID" true r.msg
      dstPortId := extractTagged "DESTPORTID" true r.msg }

/-- Lines 61–65: forward-fill the six context identifier columns, in the
row order current at that point (before any sort; `PanelID` is not in
`cols_to_fill` and is not filled). -/
def fillIdCols (rows : List Row) : List Row :=
  let r1 := fillCol Row.opId (fun r v => { r with opId := v }) rows
  let r2 := fillCol Row.magId (fun r v => { r with magId := v }) r1
  let r3 := fillCol Row.lotId (fun r v => { r with lotId := v }) r2
  let r4 := fillCol Row.portId (fun r v => { r with portId := v }) r3
  let r5 := fillCol Row.srcPortId (fun r v => { r with srcPortId := v }) r4
  fillCol Row.dstPortId (fun r v => { r with dstPortId := v }) r5

/-- Carry of `groupby('TransactionID').ffill()`: the last non-null
`MessageName` seen so far in each non-null id group (newest binding
first). -/
def lookupCarry (c : List (ℚ × String)) (t : ℚ) : Option String :=
  (c.find? fun p => p.1 = t).map Prod.snd

/-- `df.groupby('TransactionID')['MessageName'].ffill()`: within each
group of rows sharing a non-null `TransactionID`, each null takes the
nearest preceding non-null name of the same group.  Rows whose id is
null belong to no group (`dropna=True`) and come out null. -/
def gffillMsgName (c : List (ℚ × String)) : List Row → List Row
  | [] => []
  | r :: rest =>
    match r.tid with
    | none => { r with msgName := none } :: gffillMsgName c rest
    | some t =>
      match r.msgName with
      | some v => { r with msgName := some v } :: gffillMsgName ((t, v) :: c) rest
      | none => { r with msgName := lookupCarry c t } :: gffillMsgName c rest

/-- The trailing `.bfill()` of line 70 — a plain `Series.bfill` over the
whole (sorted) column, not a per-group fill. -/
def bfillMsgName (rows : List Row) : List Row :=
  setCol (fun r v => { r with msgName := v }) rows
    (bfillList (rows.map Row.msgName))

/-- Lines 73–75: extract `ControlStateChange` (`(LOCAL|REMOTE)`) and
forward-fill it into `ControlState`, in the row order current at that
point (i.e. after the line-69 sort when that sort ran). -/
def ctrlPass (rows : List Row) : List Row :=
  let r1 := rows.map fun r => { r with ctrlChange := extractCtrl r.msg }
  setCol (fun r v => { r with ctrl := v }) r1
    (ffillList none (r1.map Row.ctrlChange))

/-- Lines 47–65 of `clean_and_enrich_data`: when a `Message` column
exists, extract the engineering fields and forward-fill the six
identifier columns, in original row order. -/
def enrichStage1 (f : Frame) : List Row :=
  if f.hasMessage then fillIdCols (extractCols f.rows) else f.rows

/-- Lines 67–70: when both `TransactionID` and `MessageName` columns
exist, sort stably by `['TransactionID', 'timestamp']` (nulls last) and
run the grouped forward fill followed by the global backward fill over
`MessageName`. -/
def enrichStage2 (f : Frame) : List Row :=
  if f.hasTID && f.hasMsgName then
    bfillMsgName (gffillMsgName [] (List.insertionSort tidTsLe (enrichStage1 f)))
  else enrichStage1 f

/-- Lines 72–75: when a `Message` column exists, extract
`ControlStateChange` and forward-fill it into `ControlState`, in the
row order current after stage 2. -/
def enrichStage3 (f : Frame) : List Row :=
  if f.hasMessage then ctrlPass (enrichStage2 f) else enrichStage2 f

/-- `clean_and_enrich_data` (lines 38–77).  `pd.to_datetime` and
`pd.to_numeric(errors='coerce')` are modeled as already applied: `ts`
is numeric and `tid` is a nullable rational from the start, which is
all any claim below inspects.  The three conditional passes follow the
source order. -/
def clean_and_enrich_data (f : Frame) : Frame :=
  { f with
    rows := enrichStage3 f
    hasPtime := f.hasPtime || f.hasMessage
    hasOp := f.hasOp || f.hasMessage
    hasMag := f.hasMag || f.hasMessage
    hasLot := f.hasLot || f.hasMessage
    hasPort := f.hasPort || f.hasMessage
    hasSrc := f.hasSrc || f.hasMessage
    hasDst := f.hasDst || f.hasMessage
    hasCtrl := f.hasCtrl || f.hasMessage }

/-! ## `analyze_transaction_lifecycle` -/

/-- The dictionary returned on the success path of
`analyze_transaction_lifecycle`. -/
structure LifecycleResult where
  initiated : Nat
  completed : Nat
  orphanedCount : Nat
  orphanedIds : List ℚ
deriving DecidableEq

/-- `set(added['TransactionID'].dropna().unique())` (line 110): the
distinct non-null ids on rows whose message contains `"added to"`
(`str.contains` with `na=False` is literal substring containment). -/
def addedIds (f : Frame) : List ℚ :=
  ((f.rows.filter fun r => strContains r.msg "added to").filterMap Row.tid).dedup

/-- Distinct non-null ids on rows whose message contains
`"deleted from"`. -/
def deletedIds (f : Frame) : List ℚ :=
  ((f.rows.filter fun r => strContains r.msg "deleted from").filterMap Row.tid).dedup

/-- `orphaned_ids = added_ids - deleted_ids` (set difference). -/
def orphanedIdList (f : Frame) : List ℚ :=
  (addedIds f).filter fun t => t ∉ deletedIds f

/-- Lines 106–111.  A frame missing either required column returns the
error dictionary; otherwise the counts of the id sets and the orphaned
ids sorted ascending (`sorted(list(…))`). -/
def analyze_transaction_lifecycle (f : Frame) : Except String LifecycleResult :=
  if f.hasMessage && f.hasTID then
    .ok { initiated := (addedIds f).length
          completed := (deletedIds f).length
          orphanedCount := (orphanedIdList f).length
          orphanedIds := (orphanedIdList f).insertionSort (· ≤ ·) }
  else .error "Lifecycle analysis requires Message and TransactionID columns."

/-! ## `detect_performance_anomalies` -/

/-- `Series.quantile(q)` with the default `'linear'` interpolation:
with the values sorted ascending as `s` and `pos = q·(n−1)`, the result
is `s⌊pos⌋ + (pos − ⌊pos⌋)·(s⌊pos⌋₊₁ − s⌊pos⌋)`. -/
def quantileLinear (xs : List ℚ) (q : ℚ) : ℚ :=
  let s := xs.insertionSort (· ≤ ·)
  let pos := q * ((s.length : ℚ) - 1)
  let i := (⌊pos⌋).toNat
  let a := s.getD i 0
  let b := s.getD (i + 1) a
  a + (pos - (⌊pos⌋ : ℚ)) * (b - a)

/-- `perf_df`: the rows carrying both `ProcessTime_ms` and
`MessageName` (line 117 `dropna`). -/
def perfRows (f : Frame) : List Row :=
  f.rows.filter fun r => r.ptime.isSome && r.msgName.isSome

/-- `Q3 + 1.5·IQR` of the `MessageName` group `k` (line 121). -/
def groupBound (f : Frame) (k : String) : ℚ :=
  let xs := ((perfRows f).filter fun r => r.msgName = some k).filterMap Row.ptime
  let q1 := quantileLinear xs (1 / 4)
  let q3 := quantileLinear xs (3 / 4)
  let iqr := q3 - q1
  q3 + (3 / 2) * iqr

/-- The `groupby('MessageName')` keys: the distinct names of the
qualifying rows, ascending (pandas sorts group keys). -/
def anomalyGroupKeys (f : Frame) : List String :=
  (((perfRows f).filterMap Row.msgName).dedup).insertionSort (· ≤ ·)

/-- Lines 113–125.  Per `MessageName` group, keep the rows strictly
above the group's upper bound, concatenate, and sort the result by
timestamp.  A frame missing either column, or with no qualifying rows,
yields the empty frame. -/
def detect_performance_anomalies (f : Frame) : List Row :=
  if f.hasPtime && f.hasMsgName then
    ((anomalyGroupKeys f).flatMap fun k =>
      ((perfRows f).filter fun r => r.msgName = some k).filter fun r =>
        r.ptime.elim false fun x => groupBound f k < x).insertionSort tsLe
  else []

/-! ## `analyze_alarms` -/

/-- `str.contains("Alarm|fail|error", case=False, na=False)`. -/
def alarmKeywordRow (r : Row) : Bool :=
  strContainsCI r.msg "Alarm" || strContainsCI r.msg "fail" ||
    strContainsCI r.msg "error"

/-- `str.contains("Unknown:", case=False, na=False)`. -/
def unknownRow (r : Row) : Bool :=
  strContainsCI r.msg "Unknown:"

/-- `df['ProcessTime_ms'] < 0` at one row (null never matches). -/
def negativeTimeRow (r : Row) : Bool :=
  r.ptime.elim false fun v => decide (v < 0)

/-- `Series.value_counts()` over the issue messages: distinct values
with their multiplicities, most frequent first. -/
def valueCounts (ms : List String) : List (String × Nat) :=
  ((ms.dedup).map fun k => (k, ms.count k)).insertionSort
    fun a b => b.2 ≤ a.2

/-- Lines 131–136: `all_potential_issues` — the three issue sources
concatenated, duplicates collapsed, sorted by timestamp. -/
def alarmIssues (f : Frame) : List Row :=
  ((f.rows.filter alarmKeywordRow ++ f.rows.filter unknownRow ++
      (if f.hasPtime then f.rows.filter negativeTimeRow else [])).dedup).insertionSort
    tsLe

/-- Lines 127–141.  `df['Message']` raises `KeyError` when the frame has
no `Message` column (in particular on the empty `pd.DataFrame()` the
parser returns for an unparseable file); that raise is the `.error`
branch.  Otherwise: keyword rows, `Unknown:` rows and (when the column
exists) negative-`ProcessTime_ms` rows are concatenated, duplicates
collapsed (`drop_duplicates`), sorted by timestamp; an empty result
returns the absent pair `(None, None)`, modeled as `none`. -/
def analyze_alarms (f : Frame) :
    Except String (Option (List (String × Nat) × List Row)) :=
  if f.hasMessage then
    if (alarmIssues f).isEmpty then .ok none
    else .ok (some (valueCounts ((alarmIssues f).filterMap Row.msg), alarmIssues f))
  else .error "KeyError: Message"

/-! ## `find_halting_events` -/

/-- `"LOAD|UNLOAD|TRANSFER|PROCESS|MAPPING|DOCK"` (line 146). -/
def processingKeywords : List String :=
  ["LOAD", "UNLOAD", "TRANSFER", "PROCESS", "MAPPING", "DOCK"]

/-- `pd.Timedelta(minutes=1)` in microsecond timestamps. -/
def microsPerMinute : Int := 60000000

/-- A row counted as processing activity by line 146
(case-insensitive alternation of the six keywords). -/
def isProcessingRow (r : Row) : Bool :=
  processingKeywords.any fun k => strContainsCI r.msg k

/-- Lines 143–152.  `None` or empty issues yield the empty frame; else
each issue is kept iff no processing-activity row of `df` has its
timestamp in the half-open window `(T, T + threshold]`.  The `for` loop
appends kept issues in their original order, i.e. a filter. -/
def find_halting_events (df : Frame) (issuesOpt : Option (List Row))
    (haltThresholdMinutes : Int := 5) : List Row :=
  match issuesOpt with
  | none => []
  | some issues =>
    if issues.isEmpty then []
    else
      let processing := df.rows.filter isProcessingRow
      issues.filter fun issue =>
        (processing.filter fun p =>
          decide (issue.ts < p.ts ∧
            p.ts ≤ issue.ts + haltThresholdMinutes * microsPerMinute)).isEmpty

/-! ## `get_context_around_event` -/

/-- `key_identifiers` (line 163) with each column's accessor and
presence flag, in source order. -/
def trackedIdentifiers (f : Frame) : List (String × (Row → Option String) × Bool) :=
  [("ControlState", Row.ctrl, f.hasCtrl),
   ("OperatorID", Row.opId, f.hasOp),
   ("MagazineID", Row.magId, f.hasMag),
   ("LotID", Row.lotId, f.hasLot),
   ("PortID", Row.portId, f.hasPort),
   ("SourcePortID", Row.srcPortId, f.hasSrc),
   ("DestPortID", Row.dstPortId, f.hasDst)]

/-- `state_before_event` (line 161): the rows at or before the
reference timestamp. -/
def stateBeforeRows (f : Frame) (eventTs : Int) : List Row :=
  f.rows.filter fun r => decide (r.ts ≤ eventTs)

/-- One iteration of the loop of lines 164–166: the (zero or one)
`"Last Known <name>"` entry an identifier contributes — present iff its
column exists and `dropna()` over the state-before rows is nonempty, with
the value `dropna().iloc[-1]` (the last non-null value in row order). -/
def contextEntry (stateBefore : List Row)
    (e : String × (Row → Option String) × Bool) : List (String × String) :=
  if e.2.2 then
    match (stateBefore.filterMap e.2.1).getLast? with
    | some v => [("Last Known " ++ e.1, v)]
    | none => []
  else []

/-- Lines 154–167.  Returns the rows within ±window of the reference
timestamp, and the context dictionary assembled from the per-identifier
entries. -/
def get_context_around_event (f : Frame) (eventTs : Int)
    (windowMinutes : Int := 5) : List Row × List (String × String) :=
  let startTime := eventTs - windowMinutes * microsPerMinute
  let endTime := eventTs + windowMinutes * microsPerMinute
  (f.rows.filter fun r => decide (startTime ≤ r.ts ∧ r.ts ≤ endTime),
   (trackedIdentifiers f).flatMap (contextEntry (stateBeforeRows f eventTs)))

/-! ## Line parsing (`parse_log_file`, lines 10–30)

The line grammar is the anchored regex
`^(\d{4}/\d{2}/\d{2}\s\d{2}:\d{2}:\d{2}\.\d{6}),\[([^\]]+)\],(.*)$`
applied to `line.strip()`.  All widths in the timestamp are fixed, so
the match is deterministic; `[^\]]+` is a maximal run of non-`]`
characters; `(.*)$` takes the rest of the line and cannot cross a
newline (after `strip()` a newline could only sit strictly inside the
line, where the regex then fails to match). -/

/-- Exactly `n` ASCII digits. -/
def takeDigits : Nat → List Char → Option (List Char × List Char)
  | 0, s => some ([], s)
  | _ + 1, [] => none
  | n + 1, c :: rest =>
    if c.isDigit then (takeDigits n rest).map fun p => (c :: p.1, p.2)
    else none

/-- One mandatory literal character. -/
def expectChar (c : Char) : List Char → Option (List Char)
  | [] => none
  | d :: rest => if d = c then some rest else none

/-- The timestamp group, returning (matched characters, remainder). -/
def matchTimestamp (s : List Char) : Option (List Char × List Char) := do
  let (d1, s1) ← takeDigits 4 s
  let s2 ← expectChar '/' s1
  let (d2, s3) ← takeDigits 2 s2
  let s4 ← expectChar '/' s3
  let (d3, s5) ← takeDigits 2 s4
  match s5 with
  | [] => none
  | w :: s6 =>
    if w.isWhitespace then do
      let (d4, s7) ← takeDigits 2 s6
      let s8 ← expectChar ':' s7
      let (d5, s9) ← takeDigits 2 s8
      let s10 ← expectChar ':' s9
      let (d6, s11) ← takeDigits 2 s10
      let s12 ← expectChar '.' s11
      let (d7, s13) ← takeDigits 6 s12
      some (d1 ++ '/' :: d2 ++ '/' :: d3 ++ w ::
            (d4 ++ ':' :: d5 ++ ':' :: d6 ++ '.' :: d7), s13)
    else none

/-- `str.strip()`: drop whitespace from both ends. -/
def stripChars (l : List Char) : List Char :=
  ((l.dropWhile Char.isWhitespace).reverse.dropWhile Char.isWhitespace).reverse

/-- The anchored grammar on an already-stripped character list:
timestamp, `,` `[`, category (maximal non-`]` run, nonempty), `]` `,`,
details (rest; no newline). -/
def matchLine (l : List Char) : Option (List Char × List Char × List Char) := do
  let (t, s1) ← matchTimestamp l
  let s2 ← expectChar ',' s1
  let s3 ← expectChar '[' s2
  let cat := s3.takeWhile fun c => c ≠ ']'
  if cat.isEmpty then none else
  match s3.dropWhile fun c => c ≠ ']' with
  | ']' :: s4 => do
    let s5 ← expectChar ',' s4
    if s5.contains '\n' then none
    else some (t, cat, s5)
  | _ => none

/-- `log_pattern.match(line.strip())`, yielding the three groups. -/
def parse_line (line : String) : Option (String × String × String) :=
  (matchLine (stripChars line.data)).map fun p =>
    (String.mk p.1, String.mk p.2.1, String.mk p.2.2)

/-! ## The key=value decomposition of the details group (lines 24–26)

`re.split(r'(\w+=)', details)[1:]` cuts the details at every maximal
word-character run immediately followed by `=` (scanning left to
right), keeping those `KEY=` separators; `dict(zip(pairs[0::2],
pairs[1::2]))` pairs each separator with the text up to the next
separator, later occurrences of the same key overwriting earlier ones;
the comprehension of line 26 then drops the `=` from each key and
strips whitespace and quote characters from each value. -/

/-- Leftmost match of `\w+=`: splits `l` into (text before the match,
the word run, the text after the `=`), or `none` when no key occurs.
The scan tries every start position in turn; a position whose maximal
word run is not followed by `=` cannot match (no backtracking can help,
since `=` is not a word character), so the scan advances one character,
exactly as `re` does. -/
def nextKey : List Char → Option (List Char × List Char × List Char)
  | [] => none
  | c :: rest =>
    if isWordChar c then
      match (c :: rest).dropWhile isWordChar with
      | '=' :: after =>
        some ([], (c :: rest).takeWhile isWordChar, after)
      | _ => (nextKey rest).map fun p => (c :: p.1, p.2.1, p.2.2)
    else
      (nextKey rest).map fun p => (c :: p.1, p.2.1, p.2.2)

theorem nextKey_shape :
    ∀ {l p k r}, nextKey l = some (p, k, r) →
      l = p ++ k ++ '=' :: r ∧ k ≠ [] ∧ k.all isWordChar := by
  intro l
  induction l with
  | nil => intro p k r h; simp [nextKey] at h
  | cons c rest ih =>
    intro p k r h
    rw [nextKey] at h
    split at h
    case isTrue hc =>
      split at h
      case h_1 after heq =>
        obtain ⟨hp, hk, hr⟩ := by simpa using h
        subst hp; subst hk; subst hr
        refine ⟨?_, ?_, ?_⟩
        · have hsplit := List.takeWhile_append_dropWhile
            (p := isWordChar) (l := c :: rest)
          rw [heq] at hsplit
          simpa using hsplit.symm
        · simp [List.takeWhile_cons, hc]
        · exact List.all_takeWhile ..
      case h_2 =>
        match h' : nextKey rest with
        | none => rw [h'] at h; simp at h
        | some (p', k', r') =>
          rw [h'] at h
          obtain ⟨hp, hk, hr⟩ := by simpa using h
          subst hp; subst hk; subst hr
          obtain ⟨hsh, hne, hw⟩ := ih h'
          exact ⟨by simp [← hsh], hne, hw⟩
    case isFalse =>
      match h' : nextKey rest with
      | none => rw [h'] at h; simp at h
      | some (p', k', r') =>
        rw [h'] at h
        obtain ⟨hp, hk, hr⟩ := by simpa using h
        subst hp; subst hk; subst hr
        obtain ⟨hsh, hne, hw⟩ := ih h'
        exact ⟨by simp [← hsh], hne, hw⟩

theorem nextKey_rest_length {l p k r : List Char}
    (h : nextKey l = some (p, k, r)) : r.length < l.length := by
  obtain ⟨hsh, hne, -⟩ := nextKey_shape h
  subst hsh
  simp only [List.length_append, List.length_cons]
  omega

/-- Fuel-indexed worker for `kvTokens` (the fuel argument only makes the
recursion structural; `nextKey` strictly shrinks its input, so any fuel
at least the input length gives the same answer, see `kvTokens_eq`). -/
def kvTokensAux : Nat → List Char → List (List Char)
  | 0, l => [l]
  | fuel + 1, l =>
    match nextKey l with
    | none => [l]
    | some (p, k, r) => p :: (k ++ ['=']) :: kvTokensAux fuel r

/-- `re.split(r'(\w+=)', details)` as a token list:
`[text₀, KEY₁=, text₁, KEY₂=, text₂, …]`. -/
def kvTokens (l : List Char) : List (List Char) :=
  kvTokensAux l.length l

theorem kvTokensAux_congr :
    ∀ {fuel fuel' : Nat} {l : List Char}, l.length ≤ fuel → l.length ≤ fuel' →
      kvTokensAux fuel l = kvTokensAux fuel' l := by
  intro fuel
  induction fuel with
  | zero =>
    intro fuel' l h h'
    have : l = [] := List.length_eq_zero.mp (Nat.le_zero.mp h)
    subst this
    cases fuel' <;> simp [kvTokensAux, nextKey]
  | succ fuel ih =>
    intro fuel' l h h'
    match fuel', l with
    | 0, l =>
      have : l = [] := List.length_eq_zero.mp (Nat.le_zero.mp h')
      subst this
      simp [kvTokensAux, nextKey]
    | fuel' + 1, l =>
      simp only [kvTokensAux]
      match hnk : nextKey l with
      | none => rfl
      | some (p, k, r) =>
        have hr := nextKey_rest_length hnk
        exact congrArg (fun x => p :: (k ++ ['=']) :: x)
          (ih (by omega) (by omega))

theorem kvTokens_eq (l : List Char) :
    kvTokens l =
      match nextKey l with
      | none => [l]
      | some (p, k, r) => p :: (k ++ ['=']) :: kvTokens r := by
  unfold kvTokens
  match hl : l with
  | [] => simp [kvTokensAux, nextKey]
  | c :: rest =>
    simp only [List.length_cons, kvTokensAux]
    match hnk : nextKey (c :: rest) with
    | none => rfl
    | some (p, k, r) =>
      have hr := nextKey_rest_length hnk
      simp only [List.length_cons] at hr
      exact congrArg (fun x => p :: (k ++ ['=']) :: x)
        (kvTokensAux_congr (by omega) (le_refl r.length))

/-- `zip(pairs[0::2], pairs[1::2])` on the tokens after `[1:]`. -/
def pairUp : List (List Char) → List (String × String)
  | k :: v :: rest => (String.mk k, String.mk v) :: pairUp rest
  | _ => []

/-- The raw `(KEY=, value)` pairs of a details string, in occurrence
order (line 24 and the `zip` of line 25). -/
def splitPairs (l : List Char) : List (String × String) :=
  pairUp (kvTokens l).tail

/-- One `dict` assignment: later values overwrite, the key keeps its
original position. -/
def updateAssoc (c : List (String × String)) (kv : String × String) :
    List (String × String) :=
  match c with
  | [] => [kv]
  | p :: rest => if p.1 = kv.1 then (p.1, kv.2) :: rest else p :: updateAssoc rest kv

/-- `dict(zip(…))`: fold the pairs into an association list with
Python's last-write-wins semantics. -/
def dictOfPairs (ps : List (String × String)) : List (String × String) :=
  ps.foldl updateAssoc []

/-- `k.replace('=', '')` (drop every `=` from the key token). -/
def cleanKey (k : String) : String :=
  String.mk (k.data.filter fun c => c ≠ '=')

/-- `str.strip('"')`: drop quote characters from both ends. -/
def stripQuotes (l : List Char) : List Char :=
  ((l.dropWhile fun c => c = '"').reverse.dropWhile fun c => c = '"').reverse

/-- `v.strip().strip('"')`. -/
def cleanVal (v : String) : String :=
  String.mk (stripQuotes (stripChars v.data))

/-- The cleaned key→value mapping of line 26 (`details_cleaned`). -/
def detailsDict (det : String) : List (String × String) :=
  (dictOfPairs (splitPairs det.data)).map fun p => (cleanKey p.1, cleanVal p.2)

/-- One parsed log entry: the two named regex groups plus the embedded
key→value mapping (the `details` group itself is deleted on line 29). -/
structure LogRecord where
  timestamp : String
  log_type : String
  pairs : List (String × String)
deriving DecidableEq

/-- The per-line body of `parse_log_file`: grammar match (silently
dropping non-matching lines) followed by the key=value decomposition. -/
def parseRecord (line : String) : Option LogRecord :=
  (parse_line line).map fun p =>
    { timestamp := p.1, log_type := p.2.1, pairs := detailsDict p.2.2 }

/-- Re-serialization of the matched groups into the grammar's line form
`<timestamp>,[<category>],<details>`. -/
def serializeLine (t c d : String) : String :=
  t ++ ",[" ++ c ++ "]," ++ d

/-! ## General lemmas about the embedding -/

theorem length_setCol (set : Row → Option α → Row) :
    ∀ (rows : List Row) (vals : List (Option α)), vals.length = rows.length →
      (setCol set rows vals).length = rows.length := by
  intro rows
  induction rows with
  | nil => intro vals _; cases vals <;> rfl
  | cons r rs ih =>
    intro vals h
    cases vals with
    | nil => simp at h
    | cons v vs => simpa [setCol] using ih vs (by simpa using h)

theorem setCol_map_other (g : Row → β) (set : Row → Option α → Row)
    (hset : ∀ r v, g (set r v) = g r) :
    ∀ (rows : List Row) (vals : List (Option α)), vals.length = rows.length →
      (setCol set rows vals).map g = rows.map g := by
  intro rows
  induction rows with
  | nil => intro vals _; cases vals <;> rfl
  | cons r rs ih =>
    intro vals h
    cases vals with
    | nil => simp at h
    | cons v vs => simp [setCol, hset, ih vs (by simpa using h)]

theorem setCol_map_self (g : Row → Option α) (set : Row → Option α → Row)
    (hset : ∀ r v, g (set r v) = v) :
    ∀ (rows : List Row) (vals : List (Option α)), vals.length = rows.length →
      (setCol set rows vals).map g = vals := by
  intro rows
  induction rows with
  | nil => intro vals h; cases vals with
    | nil => rfl
    | cons v vs => simp at h
  | cons r rs ih =>
    intro vals h
    cases vals with
    | nil => simp at h
    | cons v vs => simp [setCol, hset, ih vs (by simpa using h)]

theorem length_fillCol (get : Row → Option α) (set : Row → Option α → Row)
    (rows : List Row) : (fillCol get set rows).length = rows.length := by
  unfold fillCol
  exact length_setCol set rows _ (by simp [length_ffillList])

theorem fillCol_map_self (get : Row → Option α) (set : Row → Option α → Row)
    (hset : ∀ r v, get (set r v) = v) (rows : List Row) :
    (fillCol get set rows).map get = ffillList none (rows.map get) := by
  unfold fillCol
  exact setCol_map_self get set hset rows _ (by simp [length_ffillList])

theorem fillCol_map_other (g : Row → β) (get : Row → Option α)
    (set : Row → Option α → Row) (hset : ∀ r v, g (set r v) = g r)
    (rows : List Row) : (fillCol get set rows).map g = rows.map g := by
  unfold fillCol
  exact setCol_map_other g set hset rows _ (by simp [length_ffillList])

theorem gffillMsgName_map_other (g : Row → β)
    (hg : ∀ (r : Row) (v : Option String), g { r with msgName := v } = g r) :
    ∀ (c : List (ℚ × String)) (rows : List Row),
      (gffillMsgName c rows).map g = rows.map g := by
  intro c rows
  induction rows generalizing c with
  | nil => rfl
  | cons r rest ih =>
    match htid : r.tid with
    | none =>
      have hh := hg r none
      rw [htid] at hh
      simp only [gffillMsgName, htid, List.map_cons]
      rw [hh, ih]
    | some t =>
      match hmn : r.msgName with
      | some v =>
        have hh := hg r (some v)
        rw [htid] at hh
        simp only [gffillMsgName, htid, hmn, List.map_cons]
        rw [hh, ih]
      | none =>
        have hh := hg r (lookupCarry c t)
        rw [htid] at hh
        simp only [gffillMsgName, htid, hmn, List.map_cons]
        rw [hh, ih]

theorem length_gffillMsgName (c : List (ℚ × String)) (rows : List Row) :
    (gffillMsgName c rows).length = rows.length := by
  have := congrArg List.length (gffillMsgName_map_other (fun _ => ()) (by intros; rfl) c rows)
  simpa using this

theorem length_bfillMsgName (rows : List Row) :
    (bfillMsgName rows).length = rows.length := by
  unfold bfillMsgName
  exact length_setCol _ rows _ (by simp [length_bfillList])

theorem bfillMsgName_map_other (g : Row → β)
    (hg : ∀ (r : Row) (v : Option String), g { r with msgName := v } = g r)
    (rows : List Row) : (bfillMsgName rows).map g = rows.map g := by
  unfold bfillMsgName
  exact setCol_map_other g _ hg rows _ (by simp [length_bfillList])

theorem bfillMsgName_map_msgName (rows : List Row) :
    (bfillMsgName rows).map Row.msgName = bfillList (rows.map Row.msgName) := by
  unfold bfillMsgName
  exact setCol_map_self _ _ (by intros; rfl) rows _ (by simp [length_bfillList])

theorem ctrlPass_map_other (g : Row → β)
    (hg1 : ∀ (r : Row) (v : Option String), g { r with ctrlChange := v } = g r)
    (hg2 : ∀ (r : Row) (v : Option String), g { r with ctrl := v } = g r)
    (rows : List Row) : (ctrlPass rows).map g = rows.map g := by
  unfold ctrlPass
  rw [setCol_map_other g _ hg2 _ _ (by simp [length_ffillList])]
  simp [hg1]

theorem length_ctrlPass (rows : List Row) :
    (ctrlPass rows).length = rows.length := by
  have := congrArg List.length (ctrlPass_map_other (fun _ => ())
    (by intros; rfl) (by intros; rfl) rows)
  simpa using this

theorem extractCols_map_other (g : Row → β)
    (hg : ∀ (r : Row) v1 v2 v3 v4 v5 v6 v7 v8,
      g { r with ptime := v1, opId := v2, magId := v3, lotId := v4,
                 panelId := v5, portId := v6, srcPortId := v7, dstPortId := v8 } = g r)
    (rows : List Row) : (extractCols rows).map g = rows.map g := by
  unfold extractCols
  simp only [List.map_map]
  exact List.map_congr_left fun r _ => hg r _ _ _ _ _ _ _ _

/-- Transport of a filtered projection along two lists with equal images
under `g` (used to carry order/stability facts across enrichment passes
that do not touch the fields `g` reads). -/
theorem filter_map_eq_of_map_eq {l l' : List Row} (g : Row → β)
    (h : l.map g = l'.map g) (p : β → Bool) (q : β → γ) :
    ((l.filter fun r => p (g r)).map fun r => q (g r)) =
      ((l'.filter fun r => p (g r)).map fun r => q (g r)) := by
  induction l generalizing l' with
  | nil =>
    cases l' with
    | nil => rfl
    | cons x xs => simp at h
  | cons x xs ih =>
    cases l' with
    | nil => simp at h
    | cons y ys =>
      simp only [List.map_cons, List.cons.injEq] at h
      obtain ⟨h1, h2⟩ := h
      by_cases hp : p (g x)
      · simp [List.filter_cons, hp, h1 ▸ hp, h1, ih h2]
      · simp only [List.filter_cons, hp]
        rw [show p (g y) = false by rw [← h1]; simpa using hp]
        simpa using ih h2

theorem insertionSort_eq_nil {r : α → α → Prop} [DecidableRel r] {l : List α} :
    l.insertionSort r = [] ↔ l = [] := by
  constructor
  · intro h
    have := List.length_insertionSort r l
    rw [h] at this
    exact List.length_eq_zero.mp this.symm
  · intro h; subst h; rfl

/-! # The claims

Each claim of the specification is settled below: a `claimN_…` theorem
(with a `claimN_witness` when the theorem carries hypotheses), and for
claims the code refutes, a closed `claimN_counterexample` at an explicit
input, together with the amended statement actually proved. -/

/-! ## Claim 6 — halting-event correlation -/

/-- The claim's processing-activity keyword set, spelled exactly as the
claim states it: `load/unload/transfer/process/map/dock`.  (The source
uses `MAPPING`, not `MAP`.) -/
def claimProcessingKeywords : List String :=
  ["LOAD", "UNLOAD", "TRANSFER", "PROCESS", "MAP", "DOCK"]

/-- A row containing one of the claim's keywords, case-insensitively. -/
def claimProcessingRow (r : Row) : Bool :=
  claimProcessingKeywords.any fun k => strContainsCI r.msg k

/-- A one-row frame whose only record says `MAP CHECK` 50 seconds after
the issue: per the claim this is processing activity inside the window,
but the source's `MAPPING` keyword does not match it. -/
def c6frame : Frame :=
  { rows := [{ idx := 0, ts := 100000000, msg := some "MAP CHECK" }]
    hasMessage := true }

/-- The issue record for the claim-6 counterexample. -/
def c6issue : Row := { idx := 9, ts := 50000000, msg := some "Alarm raised" }

/-- C6 refuted as stated: the code classifies the issue as halting even
though a record whose message contains the claim's keyword `map` lies in
`(T, T+5min]` — the claim's "iff zero records … (load/unload/transfer/
process/map/dock)" fails because the source matches `MAPPING`, not
`map`. -/
theorem claim6_counterexample :
    find_halting_events c6frame (some [c6issue]) 5 = [c6issue] ∧
    (c6frame.rows.filter fun p => claimProcessingRow p &&
      decide (c6issue.ts < p.ts ∧
        p.ts ≤ c6issue.ts + 5 * microsPerMinute)).length = 1 := by
  constructor
  · rfl
  · rfl

/-- C6 (amended): with the source's keyword set (`mapping` instead of
the claim's `map`), halting classification is exact: an issue is
returned iff it is one of the issues and no processing-activity record
of the frame has its timestamp in `(T, T + threshold]`; each issue is
judged independently against the full stream, and the output is a
subsequence of the issues in their original order. -/
theorem claim6_halting_characterization (df : Frame) (issues : List Row)
    (m : Int) :
    (∀ i, i ∈ find_halting_events df (some issues) m ↔
      (i ∈ issues ∧ ∀ p ∈ df.rows, isProcessingRow p = true →
        ¬(i.ts < p.ts ∧ p.ts ≤ i.ts + m * microsPerMinute))) ∧
    (find_halting_events df (some issues) m).Sublist issues := by
  unfold find_halting_events
  dsimp only
  by_cases hemp : issues.isEmpty = true
  · rw [if_pos hemp]
    have : issues = [] := by simpa [List.isEmpty_iff] using hemp
    subst this
    exact ⟨fun i => by simp, List.nil_sublist []⟩
  · rw [if_neg hemp]
    constructor
    · intro i
      rw [List.mem_filter]
      constructor
      · rintro ⟨hmem, hflt⟩
        refine ⟨hmem, ?_⟩
        intro p hp hproc hwin
        have hnil : (df.rows.filter isProcessingRow).filter
            (fun p => decide (i.ts < p.ts ∧
              p.ts ≤ i.ts + m * microsPerMinute)) = [] := by
          simpa [List.isEmpty_iff] using hflt
        have := List.filter_eq_nil_iff.mp hnil p
          (List.mem_filter.mpr ⟨hp, hproc⟩)
        exact this (by simpa using hwin)
      · rintro ⟨hmem, hno⟩
        refine ⟨hmem, ?_⟩
        rw [List.isEmpty_iff, List.filter_eq_nil_iff]
        intro p hp
        obtain ⟨hpr, hprc⟩ := List.mem_filter.mp hp
        simpa using hno p hpr hprc
    · exact List.filter_sublist issues

/-! ## Claim 7 — issue detection: empty input and absent outputs -/

/-- The empty DataFrame (`pd.DataFrame()`) the parser returns for an
input with no matching line: no rows and no columns at all. -/
def c7emptyFrame : Frame := {}

/-- C7 refuted as stated: on the empty record sequence `analyze_alarms`
does not return absent outputs — `df['Message']` raises a `KeyError`
because the empty frame has no `Message` column. -/
theorem claim7_counterexample :
    analyze_alarms c7emptyFrame = Except.error "KeyError: Message" := rfl

/-- C7 (amended): for a frame that does have a `Message` column the
operation never raises, and it returns the absent pair exactly when zero
records match the alarm keywords, the unknown marker, or (when the
`ProcessTime_ms` column exists) the negative-process-time criterion; on
a frame without a `Message` column — in particular the empty frame — it
raises `KeyError` instead. -/
theorem claim7_absent_iff_no_match (f : Frame) (h : f.hasMessage = true) :
    (analyze_alarms f).isOk = true ∧
    (analyze_alarms f = Except.ok none ↔
      ∀ r ∈ f.rows, alarmKeywordRow r = false ∧ unknownRow r = false ∧
        (f.hasPtime = true → negativeTimeRow r = false)) := by
  have hiff : (alarmIssues f).isEmpty = true ↔
      ∀ r ∈ f.rows, alarmKeywordRow r = false ∧ unknownRow r = false ∧
        (f.hasPtime = true → negativeTimeRow r = false) := by
    unfold alarmIssues
    rw [List.isEmpty_iff, insertionSort_eq_nil, List.dedup_eq_nil]
    constructor
    · intro hnil r hr
      simp only [List.append_eq_nil] at hnil
      obtain ⟨⟨h1, h2⟩, h3⟩ := hnil
      refine ⟨?_, ?_, ?_⟩
      · exact Bool.not_eq_true _ ▸ (List.filter_eq_nil_iff.mp h1 r hr)
      · exact Bool.not_eq_true _ ▸ (List.filter_eq_nil_iff.mp h2 r hr)
      · intro hp
        rw [if_pos hp] at h3
        exact Bool.not_eq_true _ ▸ (List.filter_eq_nil_iff.mp h3 r hr)
    · intro hall
      simp only [List.append_eq_nil]
      refine ⟨⟨?_, ?_⟩, ?_⟩
      · exact List.filter_eq_nil_iff.mpr fun r hr => by
          simp [(hall r hr).1]
      · exact List.filter_eq_nil_iff.mpr fun r hr => by
          simp [(hall r hr).2.1]
      · by_cases hp : f.hasPtime = true
        · rw [if_pos hp]
          exact List.filter_eq_nil_iff.mpr fun r hr => by
            simp [(hall r hr).2.2 hp]
        · rw [if_neg hp]
  by_cases hemp : (alarmIssues f).isEmpty = true
  · constructor
    · simp [analyze_alarms, h, hemp, Except.isOk, Except.toBool]
    · rw [show analyze_alarms f = Except.ok none by
        simp [analyze_alarms, h, hemp]]
      simpa using hiff.mp hemp
  · constructor
    · simp [analyze_alarms, h, hemp, Except.isOk, Except.toBool]
    · rw [show analyze_alarms f = Except.ok (some
        (valueCounts ((alarmIssues f).filterMap Row.msg), alarmIssues f)) by
        simp [analyze_alarms, h, hemp]]
      apply iff_of_false
      · intro heq; simp at heq
      · intro hall
        exact hemp (hiff.mpr hall)

/-- A nonempty benign frame for the claim-7 witness. -/
def c7witnessFrame : Frame :=
  { rows := [{ idx := 0, ts := 3, msg := some "routine event" }]
    hasMessage := true }

theorem claim7_witness :
    analyze_alarms c7witnessFrame = Except.ok none :=
  (claim7_absent_iff_no_match c7witnessFrame rfl).2.mpr (by decide)

/-! ## Claim 4 — transaction lifecycle -/

theorem dedup_toFinset [DecidableEq α] (l : List α) :
    l.dedup.toFinset = l.toFinset := by
  ext a
  simp [List.mem_toFinset, List.mem_dedup]

/-- The claim's "distinct transaction ids on records whose message
matches the add-pattern", as a finite set. -/
def addedIdSet (f : Frame) : Finset ℚ :=
  ((f.rows.filter fun r => strContains r.msg "added to").filterMap Row.tid).toFinset

/-- Distinct ids on records matching the delete-pattern. -/
def deletedIdSet (f : Frame) : Finset ℚ :=
  ((f.rows.filter fun r => strContains r.msg "deleted from").filterMap Row.tid).toFinset

/-- C4: on a frame with both a `Message` and a `TransactionID` column,
lifecycle analysis returns the number of distinct ids on add-matching
records, the number of distinct ids on delete-matching records, the
cardinality of their set difference, and that set difference sorted
ascending. -/
theorem claim4_lifecycle (f : Frame) (h : (f.hasMessage && f.hasTID) = true) :
    analyze_transaction_lifecycle f = Except.ok
      { initiated := (addedIdSet f).card
        completed := (deletedIdSet f).card
        orphanedCount := (addedIdSet f \ deletedIdSet f).card
        orphanedIds := (addedIdSet f \ deletedIdSet f).sort (· ≤ ·) } := by
  have hAfin : (addedIds f).toFinset = addedIdSet f := dedup_toFinset _
  have hDfin : (deletedIds f).toFinset = deletedIdSet f := dedup_toFinset _
  have hOnodup : (orphanedIdList f).Nodup := (List.nodup_dedup _).filter _
  have hOfin : (orphanedIdList f).toFinset = addedIdSet f \ deletedIdSet f := by
    unfold orphanedIdList
    rw [List.toFinset_filter, hAfin, Finset.sdiff_eq_filter]
    apply Finset.filter_congr
    intro t _
    simp only [decide_eq_true_eq, deletedIds, ← hDfin, List.mem_toFinset,
      List.mem_dedup, dedup_toFinset]
  have h1 : (addedIds f).length = (addedIdSet f).card := by
    rw [← hAfin]
    exact (List.toFinset_card_of_nodup (List.nodup_dedup _)).symm
  have h2 : (deletedIds f).length = (deletedIdSet f).card := by
    rw [← hDfin]
    exact (List.toFinset_card_of_nodup (List.nodup_dedup _)).symm
  have h3 : (orphanedIdList f).length =
      (addedIdSet f \ deletedIdSet f).card := by
    rw [← hOfin]
    exact (List.toFinset_card_of_nodup hOnodup).symm
  have h4 : (orphanedIdList f).insertionSort (· ≤ ·) =
      (addedIdSet f \ deletedIdSet f).sort (· ≤ ·) := by
    apply List.eq_of_perm_of_sorted (r := (· ≤ ·))
    · have hperm := List.toFinset_toList hOnodup
      rw [hOfin] at hperm
      exact (List.perm_insertionSort _ _).trans
        (hperm.symm.trans (Finset.sort_perm_toList _ _).symm)
    · exact List.sorted_insertionSort _ _
    · exact Finset.sort_sorted _ _
  unfold analyze_transaction_lifecycle
  rw [if_pos h, h1, h2, h3, h4]

/-- The spec's synthetic lifecycle log: ids 1, 2, 3 added, 2, 3
deleted. -/
def c4frame : Frame where
  rows :=
    [{ idx := 0, ts := 0, msg := some "Transaction added to queue", tid := some 1 },
     { idx := 1, ts := 1, msg := some "Transaction added to queue", tid := some 2 },
     { idx := 2, ts := 2, msg := some "Transaction added to queue", tid := some 3 },
     { idx := 3, ts := 3, msg := some "Transaction deleted from queue", tid := some 2 },
     { idx := 4, ts := 4, msg := some "Transaction deleted from queue", tid := some 3 }]
  hasMessage := true
  hasTID := true

theorem claim4_witness :
    analyze_transaction_lifecycle c4frame = Except.ok
      { initiated := (addedIdSet c4frame).card
        completed := (deletedIdSet c4frame).card
        orphanedCount := (addedIdSet c4frame \ deletedIdSet c4frame).card
        orphanedIds := (addedIdSet c4frame \ deletedIdSet c4frame).sort (· ≤ ·) } :=
  claim4_lifecycle c4frame rfl

/-! ## Claim 3 — IQR anomaly detection -/

theorem filter_perm_split (l : List α) (q c : α → Bool) :
    (l.filter q).Perm
      (l.filter (fun r => q r && c r) ++ l.filter fun r => q r && !c r) := by
  induction l with
  | nil => simp
  | cons x xs ih =>
    by_cases hq : q x
    · by_cases hc : c x
      · simpa [List.filter_cons, hq, hc] using ih.cons x
      · simp only [List.filter_cons, hq, hc, Bool.and_true, Bool.and_false,
          Bool.not_false, if_true, if_false]
        exact (ih.cons x).trans List.perm_middle.symm
    · simpa [List.filter_cons, hq] using ih

theorem flatMap_congr_mem {l : List α} {f g : α → List β}
    (h : ∀ a ∈ l, f a = g a) : l.flatMap f = l.flatMap g := by
  induction l with
  | nil => rfl
  | cons x xs ih =>
    simp only [List.flatMap_cons, h x (List.mem_cons_self x xs)]
    rw [ih fun a ha => h a (List.mem_cons_of_mem x ha)]

/-- Iterating a per-group filter over a duplicate-free cover of the keys
visits every row exactly once: the concatenation of the per-group
survivors is a permutation of a single global filter. -/
theorem groups_filter_perm (p : String → Row → Bool) :
    ∀ (keys : List String) (l : List Row), keys.Nodup →
      (∀ r ∈ l, ∀ k, r.msgName = some k → k ∈ keys) →
      (∀ r ∈ l, r.msgName.isSome = true) →
      (keys.flatMap fun k =>
        (l.filter fun r => decide (r.msgName = some k)).filter (p k)).Perm
        (l.filter fun r => r.msgName.elim false fun k => p k r) := by
  intro keys
  induction keys with
  | nil =>
    intro l _ hcov hsome
    have hl : l = [] := by
      cases l with
      | nil => rfl
      | cons r rs =>
        obtain ⟨k, hk⟩ := Option.isSome_iff_exists.mp
          (hsome r (List.mem_cons_self r rs))
        exact absurd (hcov r (List.mem_cons_self r rs) k hk) (by simp)
    subst hl
    simp
  | cons k keys ih =>
    intro l hnd hcov hsome
    have hknotin : k ∉ keys := (List.nodup_cons.mp hnd).1
    have hndk : keys.Nodup := (List.nodup_cons.mp hnd).2
    rw [List.flatMap_cons]
    -- the group-k block, fused into one filter
    have hgrp : (l.filter fun r => decide (r.msgName = some k)).filter (p k) =
        l.filter fun r =>
          (r.msgName.elim false fun k' => p k' r) &&
            decide (r.msgName = some k) := by
      rw [List.filter_filter]
      apply List.filter_congr
      intro r _
      by_cases hmk : r.msgName = some k
      · simp [hmk]
      · simp [hmk]
    -- the remaining groups, over the rows not in group k
    have hrest : (keys.flatMap fun k' =>
        (l.filter fun r => decide (r.msgName = some k')).filter (p k')).Perm
        (l.filter fun r =>
          (r.msgName.elim false fun k' => p k' r) &&
            !decide (r.msgName = some k)) := by
      have hsub : ∀ k' ∈ keys,
          (l.filter fun r => decide (r.msgName = some k')).filter (p k') =
            (((l.filter fun r => !decide (r.msgName = some k)).filter
              fun r => decide (r.msgName = some k')).filter (p k')) := by
        intro k' hk'
        have hkk : k' ≠ k := fun he => hknotin (he ▸ hk')
        simp only [List.filter_filter]
        apply List.filter_congr
        intro r _
        by_cases hmk : r.msgName = some k'
        · simp [hmk, hkk]
        · simp [hmk]
      rw [flatMap_congr_mem hsub]
      have hcov' : ∀ r ∈ l.filter fun r => !decide (r.msgName = some k),
          ∀ k', r.msgName = some k' → k' ∈ keys := by
        intro r hr k' hk'
        obtain ⟨hrl, hrk⟩ := List.mem_filter.mp hr
        have hmem := hcov r hrl k' hk'
        rcases List.mem_cons.mp hmem with he | hm
        · subst he
          simp [hk'] at hrk
        · exact hm
      have hsome' : ∀ r ∈ l.filter fun r => !decide (r.msgName = some k),
          r.msgName.isSome = true := fun r hr => hsome r (List.mem_filter.mp hr).1
      refine (ih _ hndk hcov' hsome').trans ?_
      rw [List.filter_filter]
    rw [hgrp]
    exact ((List.Perm.refl _).append hrest).trans
      (filter_perm_split l _ fun r => decide (r.msgName = some k)).symm

/-- The claim's anomaly predicate: `processTimeMs` strictly above
`Q3 + 1.5·IQR` of the row's own `messageName` group, with Q1/Q3 the
linear-interpolation quantiles of the group's values. -/
def isClaimAnomaly (f : Frame) (r : Row) : Bool :=
  r.msgName.elim false fun k =>
    r.ptime.elim false fun x => decide (groupBound f k < x)

/-- C3: on a frame carrying both columns, anomaly detection returns
exactly the qualifying rows strictly above their group's
`Q3 + 1.5·IQR` bound (as a permutation — nothing is added, lost or
duplicated), ordered by timestamp ascending. -/
theorem claim3_anomalies (f : Frame) (h : (f.hasPtime && f.hasMsgName) = true) :
    (detect_performance_anomalies f).Perm
      ((perfRows f).filter (isClaimAnomaly f)) ∧
    List.Sorted tsLe (detect_performance_anomalies f) := by
  unfold detect_performance_anomalies
  rw [if_pos h]
  constructor
  · refine (List.perm_insertionSort _ _).trans ?_
    refine (groups_filter_perm
      (fun k r => r.ptime.elim false fun x => decide (groupBound f k < x))
      (anomalyGroupKeys f) (perfRows f) ?_ ?_ ?_).trans ?_
    · exact ((List.perm_insertionSort _ _).nodup_iff).mpr (List.nodup_dedup _)
    · intro r hr k hk
      unfold anomalyGroupKeys
      rw [(List.perm_insertionSort _ _).mem_iff, List.mem_dedup]
      exact List.mem_filterMap.mpr ⟨r, hr, hk⟩
    · intro r hr
      have h2 := (List.mem_filter.mp hr).2
      simp only [Bool.and_eq_true] at h2
      exact h2.2
    · apply List.Perm.of_eq
      apply List.filter_congr
      intro r _
      rfl
  · exact List.sorted_insertionSort _ _

/-- The spec's synthetic anomaly group: twenty identical process times
plus one value 100× larger, all under one message name. -/
def c3frame : Frame where
  rows :=
    ((List.range 20).map fun i =>
      { idx := i, ts := (i : Int), msgName := some "M", ptime := some 10 }) ++
    [{ idx := 20, ts := 20, msgName := some "M", ptime := some 1000 }]
  hasPtime := true
  hasMsgName := true

theorem claim3_witness :
    (detect_performance_anomalies c3frame).Perm
      ((perfRows c3frame).filter (isClaimAnomaly c3frame)) ∧
    List.Sorted tsLe (detect_performance_anomalies c3frame) :=
  claim3_anomalies c3frame rfl

/-! ## Claim 8 — the context snapshot -/

/-- The claim's "most recent record with timestamp ≤ reference having a
non-null value": the value of the last record in sequence order with
`ts ≤ ref` and the field non-null, defined by structural recursion,
independently of the analyzer. -/
def lastKnownAt (rows : List Row) (ref : Int) (get : Row → Option String) :
    Option String :=
  match rows with
  | [] => none
  | r :: rest =>
    match lastKnownAt rest ref get with
    | some v => some v
    | none => if r.ts ≤ ref then get r else none

theorem lastKnownAt_eq_none {rows : List Row} {ref : Int}
    {get : Row → Option String} (h : lastKnownAt rows ref get = none) :
    ∀ x ∈ rows, x.ts ≤ ref → get x = none := by
  induction rows with
  | nil => intro x hx; simp at hx
  | cons r rest ih =>
    intro x hx hts
    rw [lastKnownAt] at h
    match hrec : lastKnownAt rest ref get with
    | some v => rw [hrec] at h; simp at h
    | none =>
      rw [hrec] at h
      rcases List.mem_cons.mp hx with rfl | hx'
      · rw [if_pos hts] at h; exact h
      · exact ih hrec x hx' hts

/-- The analyzer's `dropna().iloc[-1]` over the state-before rows is
exactly the rightmost qualifying value. -/
theorem getLast_filterMap_eq_lastKnownAt (rows : List Row) (ref : Int)
    (get : Row → Option String) :
    (((rows.filter fun r => decide (r.ts ≤ ref)).filterMap get).getLast?) =
      lastKnownAt rows ref get := by
  induction rows with
  | nil => rfl
  | cons r rest ih =>
    rw [lastKnownAt]
    by_cases hts : r.ts ≤ ref
    · rw [List.filter_cons, if_pos (by simpa using hts)]
      match hg : get r with
      | some v =>
        rw [List.filterMap_cons, hg]
        match hrec : lastKnownAt rest ref get with
        | some v0 =>
          rw [← ih] at hrec
          rw [List.getLast?_cons, hrec]
          rfl
        | none =>
          rw [← ih] at hrec
          rw [List.getLast?_cons, hrec]
          simp [if_pos hts, hg]
      | none =>
        rw [List.filterMap_cons, hg, ih]
        match hrec : lastKnownAt rest ref get with
        | some v0 => rfl
        | none => simp [if_pos hts, hg]
    · rw [List.filter_cons, if_neg (by simpa using hts), ih]
      match hrec : lastKnownAt rest ref get with
      | some v0 => rfl
      | none => simp [if_neg hts]

theorem string_append_cancel {s a b : String} (h : s ++ a = s ++ b) :
    a = b := by
  have hd := congrArg String.data h
  simp only [String.data_append] at hd
  exact String.ext (List.append_cancel_left hd)

/-- Under the documented timestamp order, the rightmost qualifying
record is also timestamp-maximal among qualifying records. -/
theorem lastKnownAt_maximal {rows : List Row} {ref : Int}
    {get : Row → Option String} (hsorted : List.Sorted tsLe rows) :
    ∀ v, lastKnownAt rows ref get = some v →
      ∃ r ∈ rows, get r = some v ∧ r.ts ≤ ref ∧
        ∀ x ∈ rows, x.ts ≤ ref → (get x).isSome = true → x.ts ≤ r.ts := by
  induction rows with
  | nil => intro v hlast; simp [lastKnownAt] at hlast
  | cons r rest ih =>
    intro v hlast
    obtain ⟨hhead, hrest⟩ := List.sorted_cons.mp hsorted
    rw [lastKnownAt] at hlast
    match hrec : lastKnownAt rest ref get with
    | some v0 =>
      rw [hrec] at hlast
      obtain rfl : v0 = v := by simpa using hlast
      obtain ⟨x, hx, hgx, hxts, hmax⟩ := ih hrest v0 hrec
      refine ⟨x, List.mem_cons_of_mem r hx, hgx, hxts, ?_⟩
      intro y hy hyts hysome
      rcases List.mem_cons.mp hy with rfl | hy'
      · exact hhead x hx
      · exact hmax y hy' hyts hysome
    | none =>
      rw [hrec] at hlast
      by_cases hts : r.ts ≤ ref
      · rw [if_pos hts] at hlast
        refine ⟨r, List.mem_cons_self r rest, hlast, hts, ?_⟩
        intro y hy hyts hysome
        rcases List.mem_cons.mp hy with rfl | hy'
        · exact le_refl _
        · refine absurd (lastKnownAt_eq_none hrec y hy' hyts) ?_
          simp only [Option.isSome_iff_exists] at hysome
          obtain ⟨u, hu⟩ := hysome
          simp [hu]
      · rw [if_neg hts] at hlast
        simp at hlast

/-- Distinct tracked identifiers never share an entry name. -/
theorem tracked_name_inj (f : Frame) :
    ∀ e ∈ trackedIdentifiers f, ∀ e' ∈ trackedIdentifiers f,
      e.1 = e'.1 → e = e' := by
  intro e he e' he' hname
  simp only [trackedIdentifiers, List.mem_cons, List.not_mem_nil,
    or_false] at he he'
  rcases he with rfl | rfl | rfl | rfl | rfl | rfl | rfl <;>
    rcases he' with rfl | rfl | rfl | rfl | rfl | rfl | rfl <;>
    first
      | rfl
      | (dsimp only at hname; exact absurd hname (by decide))

theorem mem_contextEntry {sb : List Row}
    {e : String × (Row → Option String) × Bool} {n v : String} :
    (n, v) ∈ contextEntry sb e ↔
      e.2.2 = true ∧ n = "Last Known " ++ e.1 ∧
        (sb.filterMap e.2.1).getLast? = some v := by
  unfold contextEntry
  by_cases hf : e.2.2 = true
  · rw [if_pos hf]
    match hg : (sb.filterMap e.2.1).getLast? with
    | some v0 => simp [hf, eq_comm]
    | none => simp [hf]
  · rw [if_neg hf]
    simp [hf]

/-- C8: when the record sequence is sorted by timestamp (its documented
order), the context snapshot contains the entry `"Last Known <name>" ↦ v`
iff the identifier's column exists and `v` is the value of the most
recent (rightmost) record at or before the reference with the field
non-null; moreover that record's timestamp is maximal among all records
at or before the reference carrying the field, and when no such record
exists the field is omitted (no entry, by the same iff). -/
theorem claim8_context_snapshot (f : Frame) (ref w : Int)
    (hsorted : List.Sorted tsLe f.rows) :
    ∀ nm get flag, (nm, get, flag) ∈ trackedIdentifiers f →
      (∀ v, ("Last Known " ++ nm, v) ∈ (get_context_around_event f ref w).2 ↔
        (flag = true ∧ lastKnownAt f.rows ref get = some v)) ∧
      (∀ v, lastKnownAt f.rows ref get = some v →
        ∃ r ∈ f.rows, get r = some v ∧ r.ts ≤ ref ∧
          ∀ x ∈ f.rows, x.ts ≤ ref → (get x).isSome = true → x.ts ≤ r.ts) := by
  intro nm get flag hmem
  constructor
  · intro v
    show _ ∈ (trackedIdentifiers f).flatMap (contextEntry (stateBeforeRows f ref)) ↔ _
    rw [List.mem_flatMap]
    constructor
    · rintro ⟨e, he, hx⟩
      obtain ⟨hflag, hn, hlast⟩ := mem_contextEntry.mp hx
      have hname : (nm, get, flag).1 = e.1 :=
        string_append_cancel hn
      have heq := tracked_name_inj f _ hmem _ he hname
      rw [← heq] at hflag hlast
      refine ⟨hflag, ?_⟩
      rw [← getLast_filterMap_eq_lastKnownAt]
      exact hlast
    · rintro ⟨hflag, hlast⟩
      refine ⟨(nm, get, flag), hmem, mem_contextEntry.mpr ⟨hflag, rfl, ?_⟩⟩
      show (List.filterMap get
        (f.rows.filter fun r => decide (r.ts ≤ ref))).getLast? = some v
      rw [getLast_filterMap_eq_lastKnownAt]
      exact hlast
  · exact lastKnownAt_maximal hsorted

/-- A small timestamp-sorted frame for the claim-8 witness. -/
def c8frame : Frame where
  rows :=
    [{ idx := 0, ts := 0, opId := some "A" },
     { idx := 1, ts := 1 },
     { idx := 2, ts := 2, opId := some "B" },
     { idx := 3, ts := 900000000, opId := some "C" }]
  hasOp := true

theorem claim8_witness :
    (∀ v, ("Last Known " ++ "OperatorID", v) ∈
        (get_context_around_event c8frame 2 5).2 ↔
      (true = true ∧ lastKnownAt c8frame.rows 2 Row.opId = some v)) ∧
    (∀ v, lastKnownAt c8frame.rows 2 Row.opId = some v →
      ∃ r ∈ c8frame.rows, Row.opId r = some v ∧ r.ts ≤ 2 ∧
        ∀ x ∈ c8frame.rows, x.ts ≤ 2 → (Row.opId x).isSome = true →
          x.ts ≤ r.ts) :=
  claim8_context_snapshot c8frame 2 5 (by decide) "OperatorID" Row.opId true
    (by simp [trackedIdentifiers]; rfl)

/-! ## Claim 1 — order of the enriched record sequence -/

/-- The fields the line-69 sort reads, plus the row index: everything
the ordering claims are about. -/
def keyProj (r : Row) : Nat × Option ℚ × Int := (r.idx, r.tid, r.ts)

theorem extractCols_keyProj (rows : List Row) :
    (extractCols rows).map keyProj = rows.map keyProj :=
  extractCols_map_other keyProj (fun _ _ _ _ _ _ _ _ _ => rfl) rows

theorem fillIdCols_map (g : Row → β)
    (h1 : ∀ (r : Row) v, g { r with opId := v } = g r)
    (h2 : ∀ (r : Row) v, g { r with magId := v } = g r)
    (h3 : ∀ (r : Row) v, g { r with lotId := v } = g r)
    (h4 : ∀ (r : Row) v, g { r with portId := v } = g r)
    (h5 : ∀ (r : Row) v, g { r with srcPortId := v } = g r)
    (h6 : ∀ (r : Row) v, g { r with dstPortId := v } = g r)
    (rows : List Row) : (fillIdCols rows).map g = rows.map g := by
  unfold fillIdCols
  rw [fillCol_map_other g Row.dstPortId _ h6,
      fillCol_map_other g Row.srcPortId _ h5,
      fillCol_map_other g Row.portId _ h4,
      fillCol_map_other g Row.lotId _ h3,
      fillCol_map_other g Row.magId _ h2,
      fillCol_map_other g Row.opId _ h1]

/-- Stage 1 never moves rows or touches `idx`, `tid`, `ts`, `msg`,
`msgName`. -/
theorem enrichStage1_map (g : Row → β)
    (hx : ∀ (r : Row) v1 v2 v3 v4 v5 v6 v7 v8,
      g { r with ptime := v1, opId := v2, magId := v3, lotId := v4,
                 panelId := v5, portId := v6, srcPortId := v7, dstPortId := v8 } = g r)
    (h1 : ∀ (r : Row) v, g { r with opId := v } = g r)
    (h2 : ∀ (r : Row) v, g { r with magId := v } = g r)
    (h3 : ∀ (r : Row) v, g { r with lotId := v } = g r)
    (h4 : ∀ (r : Row) v, g { r with portId := v } = g r)
    (h5 : ∀ (r : Row) v, g { r with srcPortId := v } = g r)
    (h6 : ∀ (r : Row) v, g { r with dstPortId := v } = g r)
    (f : Frame) : (enrichStage1 f).map g = f.rows.map g := by
  unfold enrichStage1
  by_cases hm : f.hasMessage = true
  · rw [if_pos hm, fillIdCols_map g h1 h2 h3 h4 h5 h6,
      extractCols_map_other g hx]
  · rw [if_neg hm]

/-- Stage 2 only rewrites `msgName` (after the sort). -/
theorem enrichStage2_map_sorted (g : Row → β)
    (hmsg : ∀ (r : Row) v, g { r with msgName := v } = g r)
    (f : Frame) (h : (f.hasTID && f.hasMsgName) = true) :
    (enrichStage2 f).map g =
      (List.insertionSort tidTsLe (enrichStage1 f)).map g := by
  unfold enrichStage2
  rw [if_pos h, bfillMsgName_map_other g hmsg,
    gffillMsgName_map_other g hmsg]

theorem enrichStage2_map_skip (g : Row → β)
    (f : Frame) (h : (f.hasTID && f.hasMsgName) = false) :
    (enrichStage2 f).map g = (enrichStage1 f).map g := by
  unfold enrichStage2
  rw [if_neg (by simp [h])]

/-- Stage 3 only rewrites `ctrlChange` and `ctrl`. -/
theorem enrichStage3_map (g : Row → β)
    (hcc : ∀ (r : Row) v, g { r with ctrlChange := v } = g r)
    (hcl : ∀ (r : Row) v, g { r with ctrl := v } = g r)
    (f : Frame) : (enrichStage3 f).map g = (enrichStage2 f).map g := by
  unfold enrichStage3
  by_cases hm : f.hasMessage = true
  · rw [if_pos hm, ctrlPass_map_other g hcc hcl]
  · rw [if_neg hm]

/-- Transport a `Pairwise` relation that factors through `keyProj`
between lists with equal projections. -/
theorem pairwise_transport (R : Row → Row → Prop)
    (R' : (Nat × Option ℚ × Int) → (Nat × Option ℚ × Int) → Prop)
    (hRR : ∀ a b, R a b ↔ R' (keyProj a) (keyProj b)) {l l' : List Row}
    (h : l.map keyProj = l'.map keyProj) (hs : List.Pairwise R l) :
    List.Pairwise R l' := by
  have h1 : List.Pairwise R' (l.map keyProj) :=
    List.pairwise_map.mpr (hs.imp fun hab => (hRR _ _).mp hab)
  rw [h] at h1
  exact (List.pairwise_map.mp h1).imp fun hab => (hRR _ _).mpr hab

/-- Stability of the line-69 sort: the rows of any one `(tid, ts)`
equivalence class come out of the sort as exactly the subsequence they
formed going in. -/
theorem sort_filter_key_eq (A : List Row) (t : Option ℚ) (s : Int) :
    ((List.insertionSort tidTsLe A).filter fun r =>
        decide (r.tid = t ∧ r.ts = s)) =
      A.filter fun r => decide (r.tid = t ∧ r.ts = s) := by
  have hmemkey : ∀ r ∈ A.filter fun r => decide (r.tid = t ∧ r.ts = s),
      r.tid = t ∧ r.ts = s := by
    intro r hr
    simpa using (List.mem_filter.mp hr).2
  have hpw : (A.filter fun r => decide (r.tid = t ∧ r.ts = s)).Pairwise tidTsLe := by
    apply List.pairwise_of_forall_mem_list
    intro a ha b hb
    obtain ⟨hat, has⟩ := hmemkey a ha
    obtain ⟨hbt, hbs⟩ := hmemkey b hb
    exact Or.inr ⟨by rw [tidTop, tidTop, hat, hbt], by rw [has, hbs]⟩
  have hsub : (A.filter fun r => decide (r.tid = t ∧ r.ts = s)).Sublist
      ((List.insertionSort tidTsLe A).filter fun r =>
        decide (r.tid = t ∧ r.ts = s)) := by
    have h1 := List.sublist_insertionSort hpw (List.filter_sublist A)
    have h2 := List.Sublist.filter
      (fun r => decide (r.tid = t ∧ r.ts = s)) h1
    rw [List.filter_filter] at h2
    have heq : (A.filter fun a =>
        decide (a.tid = t ∧ a.ts = s) && decide (a.tid = t ∧ a.ts = s)) =
        A.filter fun r => decide (r.tid = t ∧ r.ts = s) :=
      List.filter_congr fun a _ => Bool.and_self _
    rwa [heq] at h2
  have hperm : ((List.insertionSort tidTsLe A).filter fun r =>
      decide (r.tid = t ∧ r.ts = s)).Perm
        (A.filter fun r => decide (r.tid = t ∧ r.ts = s)) :=
    (List.perm_insertionSort tidTsLe A).filter _
  exact (hsub.eq_of_length hperm.length_eq.symm).symm

/-- A two-row frame whose `(TransactionID, timestamp)` sort inverts the
timestamp order: transaction 2 at t=5 precedes transaction 1 at t=10 in
line order, and the enrichment sorts transaction 1 (t=10) first. -/
def c1frame : Frame where
  rows :=
    [{ idx := 0, ts := 5, tid := some 2 },
     { idx := 1, ts := 10, tid := some 1 }]
  hasTID := true
  hasMsgName := true

/-- C1 refuted as stated: the enriched sequence is not ordered by
timestamp — `clean_and_enrich_data` sorts by `(TransactionID,
timestamp)` when both columns exist (and never re-sorts by timestamp),
so the output timestamps here are `[10, 5]`. -/
theorem claim1_counterexample :
    ((clean_and_enrich_data c1frame).rows.map Row.ts) = [10, 5] ∧
    ¬ List.Pairwise (fun a b : Int => a ≤ b)
      ((clean_and_enrich_data c1frame).rows.map Row.ts) := by
  refine ⟨by decide, fun hp => ?_⟩
  rw [show ((clean_and_enrich_data c1frame).rows.map Row.ts) = [10, 5]
    from by decide] at hp
  have := List.rel_of_pairwise_cons hp (List.mem_cons_self 5 [])
  omega

/-- C1 (amended): when both `TransactionID` and `MessageName` columns
exist, the enriched sequence is totally ordered by `(transactionId`
nulls-last`, timestamp)` — not by timestamp — with ties broken stably
by original order (each `(tid, ts)` class keeps its original index
subsequence); when either column is missing no sort happens at all and
the original line order is preserved. -/
theorem claim1_enrich_order (f : Frame) :
    ((f.hasTID && f.hasMsgName) = true →
      List.Sorted tidTsLe (clean_and_enrich_data f).rows ∧
      ∀ (t : Option ℚ) (s : Int),
        (((clean_and_enrich_data f).rows.filter fun r =>
            decide (r.tid = t ∧ r.ts = s)).map Row.idx) =
          ((f.rows.filter fun r =>
            decide (r.tid = t ∧ r.ts = s)).map Row.idx)) ∧
    ((f.hasTID && f.hasMsgName) = false →
      (clean_and_enrich_data f).rows.map Row.idx = f.rows.map Row.idx) := by
  have hout : (clean_and_enrich_data f).rows.map keyProj =
      (enrichStage2 f).map keyProj := by
    show (enrichStage3 f).map keyProj = _
    exact enrichStage3_map keyProj (fun _ _ => rfl) (fun _ _ => rfl) f
  have hst1 : (enrichStage1 f).map keyProj = f.rows.map keyProj :=
    enrichStage1_map keyProj (fun _ _ _ _ _ _ _ _ _ => rfl)
      (fun _ _ => rfl) (fun _ _ => rfl) (fun _ _ => rfl) (fun _ _ => rfl)
      (fun _ _ => rfl) (fun _ _ => rfl) f
  constructor
  · intro h
    have hst2 : (enrichStage2 f).map keyProj =
        (List.insertionSort tidTsLe (enrichStage1 f)).map keyProj :=
      enrichStage2_map_sorted keyProj (fun _ _ => rfl) f h
    have hmaps : (clean_and_enrich_data f).rows.map keyProj =
        (List.insertionSort tidTsLe (enrichStage1 f)).map keyProj :=
      hout.trans hst2
    constructor
    · refine pairwise_transport tidTsLe
        (fun x y => tidKey x.2.1 < tidKey y.2.1 ∨
          (tidKey x.2.1 = tidKey y.2.1 ∧ x.2.2 ≤ y.2.2))
        (fun a b => Iff.rfl) hmaps.symm ?_
      exact List.sorted_insertionSort tidTsLe (enrichStage1 f)
    · intro t s
      have e1 := filter_map_eq_of_map_eq keyProj hmaps
        (fun x => decide (x.2.1 = t ∧ x.2.2 = s)) (fun x => x.1)
      have e2 := congrArg (List.map Row.idx) (sort_filter_key_eq (enrichStage1 f) t s)
      have e3 := filter_map_eq_of_map_eq keyProj hst1
        (fun x => decide (x.2.1 = t ∧ x.2.2 = s)) (fun x => x.1)
      exact (e1.trans e2).trans e3
  · intro h
    have hst2 : (enrichStage2 f).map keyProj = (enrichStage1 f).map keyProj :=
      enrichStage2_map_skip keyProj f h
    have hall := (hout.trans hst2).trans hst1
    have := congrArg (List.map fun x : Nat × Option ℚ × Int => x.1) hall
    simpa [Function.comp] using this

theorem claim1_witness :
    List.Sorted tidTsLe (clean_and_enrich_data c1frame).rows ∧
    (((clean_and_enrich_data c1frame).rows.filter fun r =>
        decide (r.tid = some 1 ∧ r.ts = 10)).map Row.idx) =
      ((c1frame.rows.filter fun r =>
        decide (r.tid = some 1 ∧ r.ts = 10)).map Row.idx) :=
  ⟨((claim1_enrich_order c1frame).1 (by decide)).1,
   ((claim1_enrich_order c1frame).1 (by decide)).2 (some 1) 10⟩

/-! ## Claim 2 — `messageName` propagation across transaction groups -/

/-- The carry update of one `gffillMsgName` step. -/
def carryStep (c : List (ℚ × String)) (r : Row) : List (ℚ × String) :=
  match r.tid, r.msgName with
  | some t, some v => (t, v) :: c
  | _, _ => c

/-- The carry after scanning a whole block of rows. -/
def carryAfter (c : List (ℚ × String)) (rows : List Row) : List (ℚ × String) :=
  rows.foldl carryStep c

theorem gffillMsgName_append (c : List (ℚ × String)) (a b : List Row) :
    gffillMsgName c (a ++ b) =
      gffillMsgName c a ++ gffillMsgName (carryAfter c a) b := by
  induction a generalizing c with
  | nil => rfl
  | cons r rest ih =>
    match htid : r.tid with
    | none =>
      simp only [List.cons_append, gffillMsgName, htid, carryAfter,
        List.foldl_cons, carryStep]
      rw [← carryAfter]
      exact congrArg _ (ih c)
    | some t =>
      match hmn : r.msgName with
      | some v =>
        simp only [List.cons_append, gffillMsgName, htid, hmn, carryAfter,
          List.foldl_cons, carryStep]
        rw [← carryAfter]
        exact congrArg _ (ih ((t, v) :: c))
      | none =>
        simp only [List.cons_append, gffillMsgName, htid, hmn, carryAfter,
          List.foldl_cons, carryStep]
        rw [← carryAfter]
        exact congrArg _ (ih c)

theorem lookupCarry_carryAfter {t : ℚ} (c : List (ℚ × String))
    (rows : List Row) (h : ∀ r ∈ rows, r.tid ≠ some t) :
    lookupCarry (carryAfter c rows) t = lookupCarry c t := by
  induction rows generalizing c with
  | nil => rfl
  | cons r rest ih =>
    have hstep : lookupCarry (carryStep c r) t = lookupCarry c t := by
      unfold carryStep
      match htid : r.tid, hmn : r.msgName with
      | some t', some v =>
        have ht' : t' ≠ t := fun he =>
          h r (List.mem_cons_self r rest) (by rw [htid, he])
        simp [lookupCarry, List.find?, ht']
      | some t', none => rfl
      | none, _ => rfl
    unfold carryAfter
    rw [List.foldl_cons, ← carryAfter,
      ih (carryStep c r) fun x hx => h x (List.mem_cons_of_mem r hx), hstep]

theorem gffill_saturated {t : ℚ} {X : String} (c : List (ℚ × String)) :
    ∀ (rows : List Row), (∀ r ∈ rows, r.tid = some t) →
      (∀ r ∈ rows, r.msgName = none ∨ r.msgName = some X) →
      lookupCarry c t = some X →
      (gffillMsgName c rows).map Row.msgName =
        List.replicate rows.length (some X) := by
  intro rows
  induction rows generalizing c with
  | nil => intro _ _ _; rfl
  | cons r rest ih =>
    intro hall hv hc
    have htid : r.tid = some t := hall r (List.mem_cons_self r rest)
    match hmn : r.msgName with
    | some v =>
      have hvX : v = X := by
        rcases hv r (List.mem_cons_self r rest) with h0 | h0
        · rw [hmn] at h0; cases h0
        · rw [hmn] at h0; exact Option.some.injEq .. ▸ h0.symm ▸ rfl
      subst hvX
      simp only [gffillMsgName, htid, hmn, List.map_cons, List.length_cons,
        List.replicate_succ]
      rw [ih ((t, v) :: c)
        (fun x hx => hall x (List.mem_cons_of_mem r hx))
        (fun x hx => hv x (List.mem_cons_of_mem r hx))
        (by simp [lookupCarry, List.find?])]
    | none =>
      simp only [gffillMsgName, htid, hmn, List.map_cons, List.length_cons,
        List.replicate_succ, hc]
      rw [ih c
        (fun x hx => hall x (List.mem_cons_of_mem r hx))
        (fun x hx => hv x (List.mem_cons_of_mem r hx)) hc]

theorem gffill_mid {t : ℚ} {X : String} (c : List (ℚ × String)) :
    ∀ (mid : List Row), (∀ r ∈ mid, r.tid = some t) →
      (∀ r ∈ mid, r.msgName = none ∨ r.msgName = some X) →
      lookupCarry c t = none →
      (∃ r ∈ mid, r.msgName = some X) →
      ∃ a b : Nat, 0 < b ∧ a + b = mid.length ∧
        (gffillMsgName c mid).map Row.msgName =
          List.replicate a none ++ List.replicate b (some X) := by
  intro mid
  induction mid generalizing c with
  | nil =>
    intro _ _ _ hex
    obtain ⟨r, hr, _⟩ := hex
    simp at hr
  | cons r rest ih =>
    intro hall hv hc hex
    have htid : r.tid = some t := hall r (List.mem_cons_self r rest)
    match hmn : r.msgName with
    | some v =>
      have hvX : v = X := by
        rcases hv r (List.mem_cons_self r rest) with h0 | h0
        · rw [hmn] at h0; cases h0
        · rw [hmn] at h0; exact Option.some.injEq .. ▸ h0.symm ▸ rfl
      subst hvX
      refine ⟨0, rest.length + 1, by omega, by simp, ?_⟩
      simp only [gffillMsgName, htid, hmn, List.map_cons, List.replicate_zero,
        List.nil_append, List.replicate_succ]
      rw [gffill_saturated ((t, v) :: c)
        rest (fun x hx => hall x (List.mem_cons_of_mem r hx))
        (fun x hx => hv x (List.mem_cons_of_mem r hx))
        (by simp [lookupCarry, List.find?])]
    | none =>
      have hex' : ∃ x ∈ rest, x.msgName = some X := by
        obtain ⟨x, hx, hxn⟩ := hex
        rcases List.mem_cons.mp hx with rfl | hx'
        · rw [hmn] at hxn; cases hxn
        · exact ⟨x, hx', hxn⟩
      obtain ⟨a, b, hb, hab, hmap⟩ := ih c
        (fun x hx => hall x (List.mem_cons_of_mem r hx))
        (fun x hx => hv x (List.mem_cons_of_mem r hx)) hc hex'
      refine ⟨a + 1, b, hb, by simp only [List.length_cons]; omega, ?_⟩
      simp only [gffillMsgName, htid, hmn, List.map_cons, hc,
        List.replicate_succ, List.cons_append]
      rw [hmap]

theorem firstSome_append (l1 l2 : List (Option α)) :
    firstSome (l1 ++ l2) =
      match firstSome l1 with
      | some v => some v
      | none => firstSome l2 := by
  induction l1 with
  | nil => rfl
  | cons x rest ih => cases x <;> simp [firstSome, ih]

theorem firstSome_replicate_none (a : Nat) :
    firstSome (List.replicate a (none : Option α)) = none := by
  induction a with
  | zero => rfl
  | succ n ih => simpa [List.replicate_succ, firstSome] using ih

/-- Inside a block of `a` nulls followed by `b > 0` copies of `some X`,
a backward fill started anywhere in the block lands on `X`. -/
theorem firstSome_block (a b : Nat) (X : α) (rest : List (Option α))
    (hb : 0 < b) (i : Nat) (hi : i < a + b) :
    firstSome ((List.replicate a (none : Option α) ++
      (List.replicate b (some X) ++ rest)).drop i) = some X := by
  match b, hb with
  | b' + 1, _ =>
    by_cases hia : i ≤ a
    · rw [List.drop_append_of_le_length (by simpa using hia),
        List.drop_replicate, firstSome_append, firstSome_replicate_none]
      simp [List.replicate_succ, firstSome]
    · have hsplit : i = (List.replicate a (none : Option α)).length + (i - a) := by
        simp
        omega
      rw [hsplit, List.drop_append,
        List.drop_append_of_le_length (by simp; omega),
        List.drop_replicate]
      have hpos : 0 < b' + 1 - (i - a) := by omega
      match hq : b' + 1 - (i - a), hpos with
      | q + 1, _ => simp [List.replicate_succ, firstSome]

theorem dropWhile_head_false (p : α → Bool) (l : List α) :
    ∀ a, (l.dropWhile p).head? = some a → p a = false := by
  induction l with
  | nil => intro a h; simp at h
  | cons x rest ih =>
    intro a h
    by_cases hx : p x
    · rw [List.dropWhile_cons_of_pos hx] at h
      exact ih a h
    · rw [List.dropWhile_cons_of_neg hx] at h
      obtain rfl : x = a := by simpa using h
      simpa using hx

theorem tidKey_eq_coe {o : Option ℚ} {t : ℚ}
    (h : tidKey o = (t : WithTop ℚ)) : o = some t := by
  match o with
  | none => exact absurd h.symm WithTop.coe_ne_top
  | some q =>
    have : q = t := WithTop.coe_eq_coe.mp h
    rw [this]

theorem tidTsLe_mono {a b : Row} (h : tidTsLe a b) : tidTop a ≤ tidTop b := by
  rcases h with h | ⟨h, _⟩
  · exact le_of_lt h
  · exact le_of_eq h

/-- In a `(TransactionID, timestamp)`-sorted list the rows of any one
non-null transaction id form a contiguous block. -/
theorem sorted_tid_block (t : ℚ) (S : List Row)
    (hsorted : List.Pairwise tidTsLe S) :
    ∃ pre mid post : List Row,
      S = pre ++ mid ++ post ∧
      (∀ r ∈ pre, r.tid ≠ some t) ∧
      (∀ r ∈ mid, r.tid = some t) ∧
      (∀ r ∈ post, r.tid ≠ some t) := by
  refine ⟨S.takeWhile fun r => !decide (r.tid = some t),
    (S.dropWhile fun r => !decide (r.tid = some t)).takeWhile
      fun r => decide (r.tid = some t),
    (S.dropWhile fun r => !decide (r.tid = some t)).dropWhile
      fun r => decide (r.tid = some t), ?_, ?_, ?_, ?_⟩
  · rw [List.append_assoc, List.takeWhile_append_dropWhile,
      List.takeWhile_append_dropWhile]
  · intro r hr
    simpa using List.mem_takeWhile_imp hr
  · intro r hr
    simpa using List.mem_takeWhile_imp hr
  · intro r hr hcon
    obtain ⟨p0, post', hpost⟩ :
        ∃ p0 post', (S.dropWhile fun r => !decide (r.tid = some t)).dropWhile
          (fun r => decide (r.tid = some t)) = p0 :: post' := by
      match hpp : (S.dropWhile fun r => !decide (r.tid = some t)).dropWhile
          (fun r => decide (r.tid = some t)) with
      | [] => rw [hpp] at hr; simp at hr
      | a :: b => exact ⟨a, b, hpp⟩
    have hp0 : p0.tid ≠ some t := by
      have := dropWhile_head_false (fun r => decide (r.tid = some t))
        (S.dropWhile fun r => !decide (r.tid = some t)) p0
        (by rw [hpost]; rfl)
      simpa using this
    obtain ⟨h0, rest', hrest⟩ :
        ∃ h0 rest', S.dropWhile (fun r => !decide (r.tid = some t)) =
          h0 :: rest' := by
      match hrr : S.dropWhile fun r => !decide (r.tid = some t) with
      | [] => rw [hrr] at hpost; simp at hpost
      | a :: b => exact ⟨a, b, hrr⟩
    have hh0 : h0.tid = some t := by
      have := dropWhile_head_false (fun r => !decide (r.tid = some t)) S h0
        (by rw [hrest]; rfl)
      simpa using this
    have hPrest : List.Pairwise tidTsLe
        (S.dropWhile fun r => !decide (r.tid = some t)) := by
      have hsplit := List.takeWhile_append_dropWhile
        (fun r => !decide (r.tid = some t)) S
      rw [← hsplit] at hsorted
      exact (List.pairwise_append.mp hsorted).2.1
    rw [hrest] at hPrest
    -- p0 is in the tail of the rest-list
    have hp0mem : p0 ∈ rest' := by
      have hsub : ((S.dropWhile fun r => !decide (r.tid = some t)).dropWhile
          fun r => decide (r.tid = some t)).Sublist
            (S.dropWhile fun r => !decide (r.tid = some t)) :=
        List.dropWhile_sublist _
      have hp0rest := hsub.subset (by rw [hpost]; exact List.mem_cons_self _ _)
      rw [hrest] at hp0rest
      rcases List.mem_cons.mp hp0rest with rfl | h
      · exact absurd hh0 hp0
      · exact h
    have hRh0p0 : tidTsLe h0 p0 := List.rel_of_pairwise_cons hPrest hp0mem
    -- r is p0 itself or lies after p0
    rcases List.mem_cons.mp (hpost ▸ hr) with rfl | hr'
    · exact hp0 hcon
    · have hPpost : List.Pairwise tidTsLe (p0 :: post') := by
        have hsub : ((S.dropWhile fun r => !decide (r.tid = some t)).dropWhile
            fun r => decide (r.tid = some t)).Sublist
              (S.dropWhile fun r => !decide (r.tid = some t)) :=
          List.dropWhile_sublist _
        rw [hpost, hrest] at hsub
        exact hPrest.sublist hsub
      have hRp0r : tidTsLe p0 r := List.rel_of_pairwise_cons hPpost hr'
      have h1 : tidKey (some t) ≤ tidTop p0 := by
        have hmono := tidTsLe_mono hRh0p0
        rwa [tidTop, hh0] at hmono
      have h2 : tidTop p0 ≤ tidKey (some t) := by
        have hmono := tidTsLe_mono hRp0r
        rwa [show tidTop r = tidKey r.tid from rfl, hcon] at hmono
      exact hp0 (tidKey_eq_coe (le_antisymm h2 h1))

/-- After the grouped forward fill and the global backward fill over a
sorted sequence, every row of a non-null transaction-id group whose
non-null raw names all equal `X` (with at least one present) carries
`X`. -/
theorem claim2_core (t : ℚ) (X : String) (S : List Row)
    (hsorted : List.Pairwise tidTsLe S)
    (hvals : ∀ r ∈ S, r.tid = some t → r.msgName = none ∨ r.msgName = some X)
    (hex : ∃ r ∈ S, r.tid = some t ∧ r.msgName = some X) :
    ∀ r ∈ bfillMsgName (gffillMsgName [] S), r.tid = some t →
      r.msgName = some X := by
  obtain ⟨pre, mid, post, hS0, hpre, hmid, hpost⟩ := sorted_tid_block t S hsorted
  have hS : S = pre ++ (mid ++ post) := by rw [hS0, List.append_assoc]
  have hmidS : ∀ r ∈ mid, r ∈ S := by
    intro r hr
    rw [hS]
    exact List.mem_append.mpr (Or.inr (List.mem_append.mpr (Or.inl hr)))
  have hexmid : ∃ r ∈ mid, r.msgName = some X := by
    obtain ⟨r, hrS, hrt, hrn⟩ := hex
    rw [hS] at hrS
    rcases List.mem_append.mp hrS with h1 | h2
    · exact absurd hrt (hpre r h1)
    · rcases List.mem_append.mp h2 with h3 | h4
      · exact ⟨r, h3, hrn⟩
      · exact absurd hrt (hpost r h4)
  have hc1 : lookupCarry (carryAfter [] pre) t = none := by
    rw [lookupCarry_carryAfter [] pre hpre]
    rfl
  obtain ⟨a, b, hb, hab, hmap⟩ := gffill_mid (carryAfter [] pre) mid hmid
    (fun r hr => hvals r (hmidS r hr) (hmid r hr)) hc1 hexmid
  have hG : gffillMsgName [] S =
      gffillMsgName [] pre ++
        (gffillMsgName (carryAfter [] pre) mid ++
          gffillMsgName (carryAfter (carryAfter [] pre) mid) post) := by
    rw [hS, gffillMsgName_append, gffillMsgName_append]
  have hm : (gffillMsgName [] S).map Row.msgName =
      (gffillMsgName [] pre).map Row.msgName ++
        ((List.replicate a none ++ List.replicate b (some X)) ++
          (gffillMsgName (carryAfter (carryAfter [] pre) mid) post).map
            Row.msgName) := by
    rw [hG, List.map_append, List.map_append, hmap]
  have htidcol : (bfillMsgName (gffillMsgName [] S)).map Row.tid =
      S.map Row.tid := by
    rw [bfillMsgName_map_other Row.tid fun _ _ => rfl,
      gffillMsgName_map_other Row.tid fun _ _ => rfl]
  intro r hr hrt
  obtain ⟨j, hj⟩ := List.mem_iff_getElem?.mp hr
  have hjt : (S.map Row.tid)[j]? = some (some t) := by
    rw [← htidcol, List.getElem?_map, hj]
    simp [hrt]
  have hjlen : j < S.length := by
    obtain ⟨h, -⟩ := List.getElem?_eq_some.mp hjt
    simpa using h
  have hnotpre : ¬j < pre.length := by
    intro hlt
    rw [hS, List.map_append, List.getElem?_append,
      if_pos (by simpa using hlt), List.getElem?_map] at hjt
    obtain ⟨x, hx, hxt⟩ := Option.map_eq_some'.mp hjt
    obtain ⟨hxl, hxe⟩ := List.getElem?_eq_some.mp hx
    exact hpre _ (hxe ▸ List.getElem_mem hxl) hxt
  have hnotpost : j < pre.length + mid.length := by
    by_contra hge
    push_neg at hge
    rw [hS, List.map_append, List.getElem?_append_right (by simp; omega),
      List.map_append, List.getElem?_append_right (by simp; omega),
      List.getElem?_map] at hjt
    obtain ⟨x, hx, hxt⟩ := Option.map_eq_some'.mp hjt
    obtain ⟨hxl, hxe⟩ := List.getElem?_eq_some.mp hx
    exact hpost _ (hxe ▸ List.getElem_mem hxl) hxt
  have hjm : ((bfillMsgName (gffillMsgName [] S)).map Row.msgName)[j]? =
      some r.msgName := by
    rw [List.getElem?_map, hj]
    rfl
  rw [bfillMsgName_map_msgName] at hjm
  have hmlen : ((gffillMsgName [] S).map Row.msgName).length = S.length := by
    simp [length_gffillMsgName]
  rw [bfillList_getElem? _ j (by rw [hmlen]; exact hjlen)] at hjm
  have hfs : r.msgName =
      firstSome (((gffillMsgName [] S).map Row.msgName).drop j) :=
    (Option.some.inj hjm).symm
  rw [hm] at hfs
  have hprelen : ((gffillMsgName [] pre).map Row.msgName).length =
      pre.length := by
    simp [length_gffillMsgName]
  rw [show j = ((gffillMsgName [] pre).map Row.msgName).length +
      (j - pre.length) by rw [hprelen]; omega,
    List.drop_append, List.append_assoc] at hfs
  rw [firstSome_block a b X _ hb (j - pre.length) (by omega)] at hfs
  exact hfs

/-- A two-row frame with transaction group 1 entirely unnamed and
group 2 named `NAME2`: after the sort, group 1 precedes group 2, and the
final global `bfill` leaks `NAME2` backwards into group 1. -/
def c2frame : Frame where
  rows :=
    [{ idx := 0, ts := 10, tid := some 2, msgName := some "NAME2" },
     { idx := 1, ts := 5, tid := some 1 }]
  hasTID := true
  hasMsgName := true

/-- C2 refuted as stated: group 1 has no raw `messageName` at all, yet
after propagation its record carries `NAME2` — the name of group 2 —
because line 70's trailing `.bfill()` is a plain Series fill over the
whole sorted column, not a per-group fill.  So an all-null group does
not "remain null", and a name does leak across transaction-id groups. -/
theorem claim2_counterexample :
    ((clean_and_enrich_data c2frame).rows.map fun r => (r.tid, r.msgName)) =
      [(some 1, some "NAME2"), (some 2, some "NAME2")] ∧
    (c2frame.rows.filter fun r => decide (r.tid = some 1)).map Row.msgName =
      [none] :=
  ⟨by decide, by decide⟩

/-- C2 (amended): the per-group "all share one name" guarantee survives
only for groups whose non-null raw names agree: if every record of a
non-null transaction-id group has raw `messageName` null or `X`, and at
least one has `X`, then after enrichment every record of that group has
`messageName = X`.  (An all-null group, by contrast, can acquire the
name of the next group in sort order through the global backward fill —
see the counterexample — and a group with conflicting raw names keeps
distinct names.) -/
theorem claim2_propagation (f : Frame) (t : ℚ) (X : String)
    (hcols : (f.hasTID && f.hasMsgName) = true)
    (hvals : ∀ r ∈ f.rows, r.tid = some t →
      r.msgName = none ∨ r.msgName = some X)
    (hex : ∃ r ∈ f.rows, r.tid = some t ∧ r.msgName = some X) :
    ∀ r ∈ (clean_and_enrich_data f).rows, r.tid = some t →
      r.msgName = some X := by
  have hst1 : (enrichStage1 f).map (fun r => (r.tid, r.msgName)) =
      f.rows.map fun r => (r.tid, r.msgName) :=
    enrichStage1_map (fun r => (r.tid, r.msgName))
      (fun _ _ _ _ _ _ _ _ _ => rfl)
      (fun _ _ => rfl) (fun _ _ => rfl) (fun _ _ => rfl) (fun _ _ => rfl)
      (fun _ _ => rfl) (fun _ _ => rfl) f
  have hsortS : List.Pairwise tidTsLe
      (List.insertionSort tidTsLe (enrichStage1 f)) :=
    List.sorted_insertionSort tidTsLe (enrichStage1 f)
  have hpermS : (List.insertionSort tidTsLe (enrichStage1 f)).Perm
      (enrichStage1 f) := List.perm_insertionSort tidTsLe (enrichStage1 f)
  have hvalsS : ∀ r ∈ List.insertionSort tidTsLe (enrichStage1 f),
      r.tid = some t → r.msgName = none ∨ r.msgName = some X := by
    intro r hr hrt
    have hr1 : r ∈ enrichStage1 f := hpermS.mem_iff.mp hr
    have hmm : (r.tid, r.msgName) ∈
        f.rows.map fun r => (r.tid, r.msgName) := by
      rw [← hst1]
      exact List.mem_map_of_mem _ hr1
    obtain ⟨x, hx, hgx⟩ := List.mem_map.mp hmm
    have h1 : x.tid = r.tid := congrArg Prod.fst hgx
    have h2 : x.msgName = r.msgName := congrArg Prod.snd hgx
    have := hvals x hx (by rw [h1, hrt])
    rwa [h2] at this
  have hexS : ∃ r ∈ List.insertionSort tidTsLe (enrichStage1 f),
      r.tid = some t ∧ r.msgName = some X := by
    obtain ⟨r, hr, hrt, hrn⟩ := hex
    have hmm : (r.tid, r.msgName) ∈
        (enrichStage1 f).map fun r => (r.tid, r.msgName) := by
      rw [hst1]
      exact List.mem_map_of_mem _ hr
    obtain ⟨x, hx, hgx⟩ := List.mem_map.mp hmm
    have h1 : x.tid = r.tid := congrArg Prod.fst hgx
    have h2 : x.msgName = r.msgName := congrArg Prod.snd hgx
    exact ⟨x, hpermS.mem_iff.mpr hx, by rw [h1, hrt], by rw [h2, hrn]⟩
  have hcore := claim2_core t X _ hsortS hvalsS hexS
  have hs2 : enrichStage2 f =
      bfillMsgName (gffillMsgName []
        (List.insertionSort tidTsLe (enrichStage1 f))) := by
    unfold enrichStage2
    rw [if_pos hcols]
  have hst3 : (enrichStage3 f).map (fun r => (r.tid, r.msgName)) =
      (enrichStage2 f).map fun r => (r.tid, r.msgName) :=
    enrichStage3_map (fun r => (r.tid, r.msgName))
      (fun _ _ => rfl) (fun _ _ => rfl) f
  intro r hr hrt
  have hr3 : r ∈ enrichStage3 f := hr
  have hmm : (r.tid, r.msgName) ∈
      (enrichStage2 f).map fun r => (r.tid, r.msgName) := by
    rw [← hst3]
    exact List.mem_map_of_mem _ hr3
  obtain ⟨x, hx, hgx⟩ := List.mem_map.mp hmm
  have h1 : x.tid = r.tid := congrArg Prod.fst hgx
  have h2 : x.msgName = r.msgName := congrArg Prod.snd hgx
  rw [hs2] at hx
  have := hcore x hx (by rw [h1, hrt])
  rwa [h2] at this

/-- A frame whose group 1 names are `none` and `"A"`. -/
def c2wframe : Frame where
  rows :=
    [{ idx := 0, ts := 1, tid := some 1 },
     { idx := 1, ts := 2, tid := some 1, msgName := some "A" },
     { idx := 2, ts := 3, tid := some 2, msgName := some "B" }]
  hasTID := true
  hasMsgName := true

theorem claim2_witness :
    ({ idx := 0, ts := 1, tid := some 1, msgName := some "A" } : Row).msgName
      = some "A" :=
  claim2_propagation c2wframe 1 "A" (by decide) (by decide)
    ⟨{ idx := 1, ts := 2, tid := some 1, msgName := some "A" },
      by decide, by decide, by decide⟩
    { idx := 0, ts := 1, tid := some 1, msgName := some "A" }
    (by decide) (by decide)

/-! ## Claim 5 — carry-forward of the context fields -/

/-- The six identifier columns with their extraction patterns, in the
order of `cols_to_fill`. -/
def idFieldSpecs : List ((Row → Option String) × (Option String → Option String)) :=
  [(Row.opId, extractTagged "OPERATORID" true),
   (Row.magId, extractTagged "MAGAZINEID" true),
   (Row.lotId, extractTagged "LOTID" false),
   (Row.portId, extractTagged "PORTID" true),
   (Row.srcPortId, extractTagged "SRCPORTID" true),
   (Row.dstPortId, extractTagged "DESTPORTID" true)]

theorem extractCols_opId (rows : List Row) :
    (extractCols rows).map Row.opId =
      rows.map fun x => extractTagged "OPERATORID" true x.msg := by
  unfold extractCols
  rw [List.map_map]
  rfl

theorem extractCols_magId (rows : List Row) :
    (extractCols rows).map Row.magId =
      rows.map fun x => extractTagged "MAGAZINEID" true x.msg := by
  unfold extractCols
  rw [List.map_map]
  rfl

theorem extractCols_lotId (rows : List Row) :
    (extractCols rows).map Row.lotId =
      rows.map fun x => extractTagged "LOTID" false x.msg := by
  unfold extractCols
  rw [List.map_map]
  rfl

theorem extractCols_portId (rows : List Row) :
    (extractCols rows).map Row.portId =
      rows.map fun x => extractTagged "PORTID" true x.msg := by
  unfold extractCols
  rw [List.map_map]
  rfl

theorem extractCols_srcPortId (rows : List Row) :
    (extractCols rows).map Row.srcPortId =
      rows.map fun x => extractTagged "SRCPORTID" true x.msg := by
  unfold extractCols
  rw [List.map_map]
  rfl

theorem extractCols_dstPortId (rows : List Row) :
    (extractCols rows).map Row.dstPortId =
      rows.map fun x => extractTagged "DESTPORTID" true x.msg := by
  unfold extractCols
  rw [List.map_map]
  rfl

theorem fillIdCols_map_opId (rows : List Row) :
    (fillIdCols rows).map Row.opId =
      ffillList none (rows.map Row.opId) := by
  unfold fillIdCols
  rw [fillCol_map_other Row.opId Row.dstPortId (fun r v => { r with dstPortId := v }) (fun _ _ => rfl),
      fillCol_map_other Row.opId Row.srcPortId (fun r v => { r with srcPortId := v }) (fun _ _ => rfl),
      fillCol_map_other Row.opId Row.portId (fun r v => { r with portId := v }) (fun _ _ => rfl),
      fillCol_map_other Row.opId Row.lotId (fun r v => { r with lotId := v }) (fun _ _ => rfl),
      fillCol_map_other Row.opId Row.magId (fun r v => { r with magId := v }) (fun _ _ => rfl),
      fillCol_map_self Row.opId (fun r v => { r with opId := v }) (fun _ _ => rfl)]

theorem fillIdCols_map_magId (rows : List Row) :
    (fillIdCols rows).map Row.magId =
      ffillList none (rows.map Row.magId) := by
  unfold fillIdCols
  rw [fillCol_map_other Row.magId Row.dstPortId (fun r v => { r with dstPortId := v }) (fun _ _ => rfl),
      fillCol_map_other Row.magId Row.srcPortId (fun r v => { r with srcPortId := v }) (fun _ _ => rfl),
      fillCol_map_other Row.magId Row.portId (fun r v => { r with portId := v }) (fun _ _ => rfl),
      fillCol_map_other Row.magId Row.lotId (fun r v => { r with lotId := v }) (fun _ _ => rfl),
      fillCol_map_self Row.magId (fun r v => { r with magId := v }) (fun _ _ => rfl),
      fillCol_map_other Row.magId Row.opId (fun r v => { r with opId := v }) (fun _ _ => rfl)]

theorem fillIdCols_map_lotId (rows : List Row) :
    (fillIdCols rows).map Row.lotId =
      ffillList none (rows.map Row.lotId) := by
  unfold fillIdCols
  rw [fillCol_map_other Row.lotId Row.dstPortId (fun r v => { r with dstPortId := v }) (fun _ _ => rfl),
      fillCol_map_other Row.lotId Row.srcPortId (fun r v => { r with srcPortId := v }) (fun _ _ => rfl),
      fillCol_map_other Row.lotId Row.portId (fun r v => { r with portId := v }) (fun _ _ => rfl),
      fillCol_map_self Row.lotId (fun r v => { r with lotId := v }) (fun _ _ => rfl),
      fillCol_map_other Row.lotId Row.magId (fun r v => { r with magId := v }) (fun _ _ => rfl),
      fillCol_map_other Row.lotId Row.opId (fun r v => { r with opId := v }) (fun _ _ => rfl)]

theorem fillIdCols_map_portId (rows : List Row) :
    (fillIdCols rows).map Row.portId =
      ffillList none (rows.map Row.portId) := by
  unfold fillIdCols
  rw [fillCol_map_other Row.portId Row.dstPortId (fun r v => { r with dstPortId := v }) (fun _ _ => rfl),
      fillCol_map_other Row.portId Row.srcPortId (fun r v => { r with srcPortId := v }) (fun _ _ => rfl),
      fillCol_map_self Row.portId (fun r v => { r with portId := v }) (fun _ _ => rfl),
      fillCol_map_other Row.portId Row.lotId (fun r v => { r with lotId := v }) (fun _ _ => rfl),
      fillCol_map_other Row.portId Row.magId (fun r v => { r with magId := v }) (fun _ _ => rfl),
      fillCol_map_other Row.portId Row.opId (fun r v => { r with opId := v }) (fun _ _ => rfl)]

theorem fillIdCols_map_srcPortId (rows : List Row) :
    (fillIdCols rows).map Row.srcPortId =
      ffillList none (rows.map Row.srcPortId) := by
  unfold fillIdCols
  rw [fillCol_map_other Row.srcPortId Row.dstPortId (fun r v => { r with dstPortId := v }) (fun _ _ => rfl),
      fillCol_map_self Row.srcPortId (fun r v => { r with srcPortId := v }) (fun _ _ => rfl),
      fillCol_map_other Row.srcPortId Row.portId (fun r v => { r with portId := v }) (fun _ _ => rfl),
      fillCol_map_other Row.srcPortId Row.lotId (fun r v => { r with lotId := v }) (fun _ _ => rfl),
      fillCol_map_other Row.srcPortId Row.magId (fun r v => { r with magId := v }) (fun _ _ => rfl),
      fillCol_map_other Row.srcPortId Row.opId (fun r v => { r with opId := v }) (fun _ _ => rfl)]

theorem fillIdCols_map_dstPortId (rows : List Row) :
    (fillIdCols rows).map Row.dstPortId =
      ffillList none (rows.map Row.dstPortId) := by
  unfold fillIdCols
  rw [fillCol_map_self Row.dstPortId (fun r v => { r with dstPortId := v }) (fun _ _ => rfl),
      fillCol_map_other Row.dstPortId Row.srcPortId (fun r v => { r with srcPortId := v }) (fun _ _ => rfl),
      fillCol_map_other Row.dstPortId Row.portId (fun r v => { r with portId := v }) (fun _ _ => rfl),
      fillCol_map_other Row.dstPortId Row.lotId (fun r v => { r with lotId := v }) (fun _ _ => rfl),
      fillCol_map_other Row.dstPortId Row.magId (fun r v => { r with magId := v }) (fun _ _ => rfl),
      fillCol_map_other Row.dstPortId Row.opId (fun r v => { r with opId := v }) (fun _ _ => rfl)]

/-- The row index together with the six identifier columns — the data
the claim-5 statements are about.  Stages 2 and 3 never write these
fields, and the sort only permutes rows. -/
def idProj (r : Row) :
    Nat × Option String × Option String × Option String ×
      Option String × Option String × Option String :=
  (r.idx, r.opId, r.magId, r.lotId, r.portId, r.srcPortId, r.dstPortId)

theorem out_perm_stage1 (f : Frame) :
    ((clean_and_enrich_data f).rows.map idProj).Perm
      ((enrichStage1 f).map idProj) := by
  have h3 : (enrichStage3 f).map idProj = (enrichStage2 f).map idProj :=
    enrichStage3_map idProj (fun _ _ => rfl) (fun _ _ => rfl) f
  show ((enrichStage3 f).map idProj).Perm _
  rw [h3]
  by_cases hc : (f.hasTID && f.hasMsgName) = true
  · rw [enrichStage2_map_sorted idProj (fun _ _ => rfl) f hc]
    exact (List.perm_insertionSort tidTsLe (enrichStage1 f)).map idProj
  · rw [enrichStage2_map_skip idProj f (by simpa using hc)]

/-- The `ControlState` column written by the last pass is the forward
fill of the `(LOCAL|REMOTE)` extraction over the rows it receives. -/
theorem ctrlPass_map_ctrl (rows : List Row) :
    (ctrlPass rows).map Row.ctrl =
      ffillList none (rows.map fun r => extractCtrl r.msg) := by
  unfold ctrlPass
  rw [setCol_map_self Row.ctrl (fun r v => { r with ctrl := v })
    (fun _ _ => rfl) _ _ (by simp [length_ffillList])]
  rw [List.map_map]
  rfl

theorem ctrlPass_map_extract (rows : List Row) :
    ((ctrlPass rows).map fun r => extractCtrl r.msg) =
      rows.map fun r => extractCtrl r.msg :=
  ctrlPass_map_other (fun r => extractCtrl r.msg)
    (fun _ _ => rfl) (fun _ _ => rfl) rows

/-- C5 (amended): the forward fill of the six identifier columns runs
in the original line order, before the line-69 sort — so for every
output record `r`, its identifier value is the last non-null raw
extraction among the first `idx+1` input rows (in particular, records
whose original position precedes every raw observation keep the field
null, regardless of where the sort placed them).  `ControlState`, by
contrast, is filled after the sort: at every output position `j` it is
the last non-null `(LOCAL|REMOTE)` extraction among output positions
`≤ j`. -/
theorem claim5_carry_forward (f : Frame) (hmsg : f.hasMessage = true)
    (hidx : f.rows.map Row.idx = List.range f.rows.length) :
    (∀ gp ∈ idFieldSpecs, ∀ r ∈ (clean_and_enrich_data f).rows,
      gp.1 r = lastSomeFrom none
        ((f.rows.map fun x => gp.2 x.msg).take (r.idx + 1))) ∧
    (∀ j, j < (clean_and_enrich_data f).rows.length →
      ((clean_and_enrich_data f).rows.map Row.ctrl)[j]? =
        some (lastSomeFrom none
          (((clean_and_enrich_data f).rows.map fun x =>
            extractCtrl x.msg).take (j + 1)))) := by
  have hidx1 : (enrichStage1 f).map Row.idx = List.range f.rows.length := by
    rw [enrichStage1_map Row.idx (fun _ _ _ _ _ _ _ _ _ => rfl)
      (fun _ _ => rfl) (fun _ _ => rfl) (fun _ _ => rfl) (fun _ _ => rfl)
      (fun _ _ => rfl) (fun _ _ => rfl) f, hidx]
  have hlen1 : (enrichStage1 f).length = f.rows.length := by
    have := congrArg List.length hidx1
    simpa using this
  constructor
  · intro gp hgp r hr
    have hrmem : idProj r ∈ (enrichStage1 f).map idProj :=
      (out_perm_stage1 f).subset (List.mem_map_of_mem idProj hr)
    obtain ⟨x, hx, hpx⟩ := List.mem_map.mp hrmem
    obtain ⟨j, hjq⟩ := List.mem_iff_getElem?.mp hx
    obtain ⟨hjlt, hjx⟩ := List.getElem?_eq_some.mp hjq
    have hxidx : x.idx = j := by
      have h1 : ((enrichStage1 f).map Row.idx)[j]? = some x.idx := by
        rw [List.getElem?_map, hjq]
        rfl
      rw [hidx1, List.getElem?_range (by rw [← hlen1]; exact hjlt)] at h1
      exact (Option.some.inj h1).symm
    have hridx : r.idx = j := by
      have := congrArg Prod.fst hpx
      simp only [idProj] at this
      rw [← this, hxidx]
    -- the stage-1 value of each identifier column at position j
    have hcolval : ∀ (get : Row → Option String)
        (ext : Option String → Option String),
        (enrichStage1 f).map get =
          ffillList none (f.rows.map fun y => ext y.msg) →
        get x = lastSomeFrom none
          ((f.rows.map fun y => ext y.msg).take (j + 1)) := by
      intro get ext hcol
      have h1 : ((enrichStage1 f).map get)[j]? = some (get x) := by
        rw [List.getElem?_map, hjq]
        rfl
      rw [hcol, ffillList_getElem? none _ j
        (by simpa using hlen1 ▸ hjlt)] at h1
      exact (Option.some.inj h1).symm
    have hstage1 : ∀ gq ∈ idFieldSpecs, (enrichStage1 f).map gq.1 =
        ffillList none (f.rows.map fun y => gq.2 y.msg) := by
      intro gq hgq
      unfold enrichStage1
      rw [if_pos hmsg]
      simp only [idFieldSpecs, List.mem_cons, List.not_mem_nil,
        or_false] at hgq
      rcases hgq with rfl | rfl | rfl | rfl | rfl | rfl
      · show (fillIdCols (extractCols f.rows)).map Row.opId = _
        rw [fillIdCols_map_opId, extractCols_opId]
      · show (fillIdCols (extractCols f.rows)).map Row.magId = _
        rw [fillIdCols_map_magId, extractCols_magId]
      · show (fillIdCols (extractCols f.rows)).map Row.lotId = _
        rw [fillIdCols_map_lotId, extractCols_lotId]
      · show (fillIdCols (extractCols f.rows)).map Row.portId = _
        rw [fillIdCols_map_portId, extractCols_portId]
      · show (fillIdCols (extractCols f.rows)).map Row.srcPortId = _
        rw [fillIdCols_map_srcPortId, extractCols_srcPortId]
      · show (fillIdCols (extractCols f.rows)).map Row.dstPortId = _
        rw [fillIdCols_map_dstPortId, extractCols_dstPortId]
    have hxval := hcolval gp.1 gp.2 (hstage1 gp hgp)
    -- transfer from x to r through the projection equality
    have hcomp : gp.1 x = gp.1 r := by
      simp only [idFieldSpecs, List.mem_cons, List.not_mem_nil,
        or_false] at hgp
      rcases hgp with rfl | rfl | rfl | rfl | rfl | rfl <;>
        · simp only [idProj, Prod.mk.injEq] at hpx
          dsimp only
          tauto
    rw [← hcomp, hxval, hridx]
  · intro j hjlt
    have hrows3 : (clean_and_enrich_data f).rows = ctrlPass (enrichStage2 f) := by
      show enrichStage3 f = _
      unfold enrichStage3
      rw [if_pos hmsg]
    rw [hrows3, ctrlPass_map_ctrl, ctrlPass_map_extract]
    rw [hrows3, length_ctrlPass] at hjlt
    exact ffillList_getElem? none _ j (by simpa using hjlt)

/-- Row 0 (original order) carries an `OperatorID` observation and sorts
last by `(TransactionID, timestamp)`; row 1 has none and sorts first. -/
def c5frame : Frame where
  rows :=
    [{ idx := 0, ts := 10, tid := some 2, msg := some "OPERATORID >  <A[1] \"X\"" },
     { idx := 1, ts := 5, tid := some 1, msg := some "hello" }]
  hasMessage := true
  hasTID := true
  hasMsgName := true

/-- C5 refuted as stated for the six identifier fields: their forward
fill (lines 63–65) runs in original line order, before the line-69
sort.  Here the first record of the sorted output has a null raw
`OperatorID` extraction and no record before it, yet its enriched value
is `some "X"` — carried from a row that precedes it in original order
but follows it in sorted order — so "records before the first
observation of F keep F null" fails in sorted order. -/
theorem claim5_counterexample :
    ((clean_and_enrich_data c5frame).rows.map fun r =>
      (r.ts, extractTagged "OPERATORID" true r.msg, r.opId)) =
      [(5, none, some "X"), (10, some "X", some "X")] := by
  decide

/-! ## C9: round-trip of the line grammar -/

theorem dropWhile_eq_self_of_head (p : α → Bool) (l : List α)
    (h : ∀ a, l.head? = some a → p a = false) : l.dropWhile p = l := by
  cases l with
  | nil => rfl
  | cons x rest =>
    have := h x rfl
    rw [List.dropWhile_cons_of_neg (by simp [this])]

theorem getLast?_dropWhile (p : α → Bool) (l : List α)
    (h : l.dropWhile p ≠ []) : (l.dropWhile p).getLast? = l.getLast? := by
  conv_rhs => rw [← List.takeWhile_append_dropWhile (p := p) (l := l)]
  rw [List.getLast?_append_of_ne_nil _ h]

/-- `str.strip()` is idempotent. -/
theorem stripChars_idem (l : List Char) :
    stripChars (stripChars l) = stripChars l := by
  unfold stripChars
  have hstep1 : ((l.dropWhile Char.isWhitespace).reverse.dropWhile
        Char.isWhitespace).reverse.dropWhile Char.isWhitespace =
      ((l.dropWhile Char.isWhitespace).reverse.dropWhile
        Char.isWhitespace).reverse := by
    apply dropWhile_eq_self_of_head
    intro a ha
    rw [List.head?_reverse] at ha
    have hne : (l.dropWhile Char.isWhitespace).reverse.dropWhile
        Char.isWhitespace ≠ [] := by
      intro hz
      rw [hz] at ha
      simp at ha
    rw [getLast?_dropWhile _ _ hne, List.getLast?_reverse] at ha
    exact dropWhile_head_false _ _ a ha
  rw [hstep1, List.reverse_reverse,
    dropWhile_eq_self_of_head _ _ (dropWhile_head_false _ _)]

theorem takeDigits_shape :
    ∀ {n : Nat} {s d r : List Char}, takeDigits n s = some (d, r) →
      s = d ++ r := by
  intro n
  induction n with
  | zero =>
    intro s d r h
    simp only [takeDigits, Option.some.injEq, Prod.mk.injEq] at h
    rw [← h.1, ← h.2]
    rfl
  | succ n ih =>
    intro s d r h
    cases s with
    | nil => simp [takeDigits] at h
    | cons c rest =>
      rw [takeDigits] at h
      split at h
      · match h' : takeDigits n rest with
        | none => rw [h'] at h; simp at h
        | some (d', r') =>
          rw [h'] at h
          obtain ⟨hd, hr⟩ : c :: d' = d ∧ r' = r := by simpa using h
          subst hd; subst hr
          rw [List.cons_append, ← ih h']
      · simp at h

theorem expectChar_shape {c : Char} {s r : List Char}
    (h : expectChar c s = some r) : s = c :: r := by
  cases s with
  | nil => simp [expectChar] at h
  | cons x rest =>
    rw [expectChar] at h
    split at h
    case isTrue hx =>
      obtain rfl : rest = r := by simpa using h
      rw [hx]
    case isFalse => simp at h

theorem matchTimestamp_shape {s t r : List Char}
    (h : matchTimestamp s = some (t, r)) : s = t ++ r := by
  unfold matchTimestamp at h
  obtain ⟨⟨d1, s1⟩, h1, h⟩ := Option.bind_eq_some.mp h
  obtain ⟨s2, h2, h⟩ := Option.bind_eq_some.mp h
  obtain ⟨⟨d2, s3⟩, h3, h⟩ := Option.bind_eq_some.mp h
  obtain ⟨s4, h4, h⟩ := Option.bind_eq_some.mp h
  obtain ⟨⟨d3, s5⟩, h5, h⟩ := Option.bind_eq_some.mp h
  dsimp only at h
  cases s5 with
  | nil => simp at h
  | cons w s6 =>
    dsimp only at h
    split at h
    case isTrue hw =>
      obtain ⟨⟨d4, s7⟩, h7, h⟩ := Option.bind_eq_some.mp h
      obtain ⟨s8, h8, h⟩ := Option.bind_eq_some.mp h
      obtain ⟨⟨d5, s9⟩, h9, h⟩ := Option.bind_eq_some.mp h
      obtain ⟨s10, h10, h⟩ := Option.bind_eq_some.mp h
      obtain ⟨⟨d6, s11⟩, h11, h⟩ := Option.bind_eq_some.mp h
      obtain ⟨s12, h12, h⟩ := Option.bind_eq_some.mp h
      obtain ⟨⟨d7, s13⟩, h13, h⟩ := Option.bind_eq_some.mp h
      obtain ⟨ht, hr⟩ : d1 ++ '/' :: d2 ++ '/' :: d3 ++ w ::
          (d4 ++ ':' :: d5 ++ ':' :: d6 ++ '.' :: d7) = t ∧ s13 = r := by
        simpa using h
      subst ht; subst hr
      dsimp only at h8 h10 h12
      rw [takeDigits_shape h1, expectChar_shape h2, takeDigits_shape h3,
        expectChar_shape h4, takeDigits_shape h5,
        takeDigits_shape h7, expectChar_shape h8, takeDigits_shape h9,
        expectChar_shape h10, takeDigits_shape h11, expectChar_shape h12,
        takeDigits_shape h13]
      simp
    case isFalse => simp at h

theorem matchLine_shape {l t c d : List Char}
    (h : matchLine l = some (t, c, d)) :
    l = t ++ ',' :: '[' :: (c ++ ']' :: ',' :: d) := by
  unfold matchLine at h
  obtain ⟨⟨tl, s1⟩, h1, h⟩ := Option.bind_eq_some.mp h
  obtain ⟨s2, h2, h⟩ := Option.bind_eq_some.mp h
  obtain ⟨s3, h3, h⟩ := Option.bind_eq_some.mp h
  dsimp only at h
  split at h
  case isTrue => simp at h
  case isFalse hcat =>
    split at h
    case h_1 s4 hdrop =>
      obtain ⟨s5, h5, h⟩ := Option.bind_eq_some.mp h
      split at h
      case isTrue => simp at h
      case isFalse =>
        obtain ⟨ht, hc, hd⟩ : tl = t ∧
            List.takeWhile (fun x => decide (x ≠ ']')) s3 = c ∧
            s5 = d := by simpa using h
        subst ht; subst hd
        have hs3 : s3 = c ++ ']' :: s4 := by
          conv_lhs => rw [← List.takeWhile_append_dropWhile
            (p := fun x => decide (x ≠ ']')) (l := s3)]
          rw [hdrop, hc]
        rw [matchTimestamp_shape h1, expectChar_shape h2,
          expectChar_shape h3, hs3, expectChar_shape h5]
    case h_2 => simp at h

/-- C9: a line that matches the grammar re-parses identically after its
matched groups are re-serialized into `<timestamp>,[<category>],<details>`
form — both at the level of the three groups and of the final record. -/
theorem claim9_roundtrip (line t c d : String)
    (h : parse_line line = some (t, c, d)) :
    parse_line (serializeLine t c d) = some (t, c, d) ∧
    parseRecord (serializeLine t c d) = parseRecord line := by
  unfold parse_line at h
  obtain ⟨⟨tl, cl, dl⟩, hm, heq⟩ := Option.map_eq_some'.mp h
  obtain ⟨ht, hc, hd⟩ : String.mk tl = t ∧ String.mk cl = c ∧
      String.mk dl = d := by simpa using heq
  subst ht; subst hc; subst hd
  have hshape := matchLine_shape hm
  have hdata : (serializeLine (String.mk tl) (String.mk cl)
      (String.mk dl)).data = stripChars line.data := by
    show (String.mk tl ++ ",[" ++ String.mk cl ++ "]," ++ String.mk dl).data = _
    rw [String.data_append, String.data_append, String.data_append,
      String.data_append, hshape]
    simp
  have hparse2 : parse_line (serializeLine (String.mk tl) (String.mk cl)
      (String.mk dl)) = some (String.mk tl, String.mk cl, String.mk dl) := by
    unfold parse_line
    rw [hdata, stripChars_idem, hm]
    rfl
  refine ⟨hparse2, ?_⟩
  unfold parseRecord parse_line
  rw [hdata, stripChars_idem, hm]

def c9line : String := "2024/01/02 03:04:05.123456,[INFO],CEID=5 ALID=7"

/-- Closed instance of `claim9_roundtrip` at a concrete matching line. -/
theorem claim9_witness :
    parse_line c9line =
      some ("2024/01/02 03:04:05.123456", "INFO", "CEID=5 ALID=7") ∧
    (parse_line (serializeLine "2024/01/02 03:04:05.123456" "INFO"
        "CEID=5 ALID=7") =
      some ("2024/01/02 03:04:05.123456", "INFO", "CEID=5 ALID=7") ∧
     parseRecord (serializeLine "2024/01/02 03:04:05.123456" "INFO"
        "CEID=5 ALID=7") = parseRecord c9line) :=
  ⟨by decide, claim9_roundtrip c9line "2024/01/02 03:04:05.123456" "INFO"
    "CEID=5 ALID=7" (by decide)⟩

/-- Closed instance of `claim5_carry_forward` at `c5frame`, column
`ControlState`, output position 0. -/
theorem claim5_witness :
    c5frame.hasMessage = true ∧
    (c5frame.rows.map Row.idx = List.range c5frame.rows.length) ∧
    ((clean_and_enrich_data c5frame).rows.map Row.ctrl)[0]? =
      some (lastSomeFrom none
        (((clean_and_enrich_data c5frame).rows.map fun x =>
          extractCtrl x.msg).take 1)) :=
  ⟨rfl, by decide,
    (claim5_carry_forward c5frame rfl (by decide)).2 0 (by decide)⟩

/-! ## C10: duplicate keys in the details dictionary -/

/-- Python `dict.get`: the value stored at `k`, if any. -/
def lookupStr (c : List (String × String)) (k : String) : Option String :=
  (c.find? fun p => p.1 = k).map Prod.snd

theorem lookupStr_cons (p : String × String) (c : List (String × String))
    (k : String) :
    lookupStr (p :: c) k = if p.1 = k then some p.2 else lookupStr c k := by
  by_cases h : p.1 = k
  · rw [if_pos h]
    unfold lookupStr
    rw [List.find?_cons_of_pos _ (by simpa using h)]
    rfl
  · rw [if_neg h]
    unfold lookupStr
    rw [List.find?_cons_of_neg _ (by simpa using h)]

theorem lookupStr_updateAssoc (c : List (String × String))
    (kv : String × String) (k : String) :
    lookupStr (updateAssoc c kv) k =
      if kv.1 = k then some kv.2 else lookupStr c k := by
  induction c with
  | nil =>
    show lookupStr [kv] k = _
    rw [lookupStr_cons]
  | cons p rest ih =>
    show lookupStr (if p.1 = kv.1 then (p.1, kv.2) :: rest
      else p :: updateAssoc rest kv) k = _
    by_cases hp : p.1 = kv.1
    · rw [if_pos hp, lookupStr_cons, lookupStr_cons]
      by_cases hk : kv.1 = k
      · rw [if_pos hk, if_pos (hp.trans hk)]
      · have hpk : ¬ p.1 = k := fun h => hk (hp ▸ h)
        rw [if_neg hk, if_neg hpk, if_neg hpk]
    · rw [if_neg hp, lookupStr_cons, ih, lookupStr_cons]
      by_cases hpk : p.1 = k
      · have hk : ¬ kv.1 = k := fun h => hp (hpk.trans h.symm)
        rw [if_pos hpk, if_neg hk, if_pos hpk]
      · rw [if_neg hpk, if_neg hpk]

theorem getLast?_cons_or (l : List α) :
    ∀ a : α, (a :: l).getLast? = (l.getLast?).or (some a) := by
  induction l with
  | nil => intro a; simp
  | cons b bs ih =>
    intro a
    rw [List.getLast?_cons_cons, ih b, Option.or_assoc]
    cases bs.getLast? <;> rfl

/-- Last-write-wins of `dict(zip(...))` over the accumulator fold. -/
theorem lookupStr_dictAux :
    ∀ (ps acc : List (String × String)) (k : String),
      lookupStr (ps.foldl updateAssoc acc) k =
        (((ps.filter fun p => p.1 = k).getLast?).map Prod.snd).or
          (lookupStr acc k) := by
  intro ps
  induction ps with
  | nil => intro acc k; simp
  | cons p rest ih =>
    intro acc k
    rw [List.foldl_cons, ih (updateAssoc acc p) k, lookupStr_updateAssoc,
      List.filter_cons]
    by_cases hpk : p.1 = k
    · rw [if_pos hpk, if_pos (by simpa using hpk), getLast?_cons_or]
      cases hfl : ((rest.filter fun q => decide (q.1 = k)).getLast?) with
      | none => simp
      | some q => simp
    · rw [if_neg hpk, if_neg (by simpa using hpk)]

theorem lookupStr_dictOfPairs (ps : List (String × String)) (k : String) :
    lookupStr (dictOfPairs ps) k =
      ((ps.filter fun p => p.1 = k).getLast?).map Prod.snd := by
  unfold dictOfPairs
  rw [lookupStr_dictAux ps [] k]
  rw [show lookupStr ([] : List (String × String)) k = none from rfl,
    Option.or_none]

theorem kvTokens_ne_nil (l : List Char) :
    ∃ t0 rest, kvTokens l = t0 :: rest := by
  cases hnk : nextKey l with
  | none => rw [kvTokens_eq, hnk]; exact ⟨l, [], rfl⟩
  | some t =>
    obtain ⟨p, k, r⟩ := t
    rw [kvTokens_eq, hnk]
    exact ⟨p, _, rfl⟩

/-- Every raw key token produced by the `re.split` layer is a nonempty
word-character run followed by `=`. -/
theorem splitPairs_key_shape :
    ∀ (n : Nat) (l : List Char), l.length ≤ n →
      ∀ p ∈ splitPairs l, ∃ w, w ≠ [] ∧ w.all isWordChar = true ∧
        p.1 = String.mk (w ++ ['=']) := by
  intro n
  induction n with
  | zero =>
    intro l hl p hp
    obtain rfl : l = [] := List.length_eq_zero.mp (Nat.le_zero.mp hl)
    rw [splitPairs, kvTokens_eq] at hp
    simp [nextKey, pairUp] at hp
  | succ n ih =>
    intro l hl p hp
    cases hnk : nextKey l with
    | none =>
      rw [splitPairs, kvTokens_eq, hnk] at hp
      simp [pairUp] at hp
    | some t =>
      obtain ⟨pre, k, r⟩ := t
      rw [splitPairs, kvTokens_eq, hnk] at hp
      obtain ⟨t0, rest, hkv⟩ := kvTokens_ne_nil r
      have hp2 : p ∈ pairUp ((k ++ ['=']) :: kvTokens r) := hp
      rw [hkv] at hp2
      have hp3 : p ∈ (String.mk (k ++ ['=']), String.mk t0) :: pairUp rest :=
        hp2
      rcases List.mem_cons.mp hp3 with hpe | hpm
      · obtain ⟨-, hne, hkw⟩ := nextKey_shape hnk
        exact ⟨k, hne, hkw, by rw [hpe]⟩
      · have hsp : splitPairs r = pairUp rest := by
          rw [splitPairs, hkv]
          rfl
        have hr : r.length ≤ n := by
          have := nextKey_rest_length hnk
          omega
        exact ih r hr p (by rw [hsp]; exact hpm)

theorem cleanKey_shape (w : List Char) (hw : w.all isWordChar = true) :
    cleanKey (String.mk (w ++ ['='])) = String.mk w := by
  unfold cleanKey
  congr 1
  show (w ++ ['=']).filter (fun c => decide (c ≠ '=')) = w
  rw [List.filter_append]
  have h1 : w.filter (fun c => decide (c ≠ '=')) = w := by
    rw [List.filter_eq_self]
    intro a ha
    have haw := List.all_eq_true.mp hw a ha
    simp only [decide_eq_true_eq]
    intro heq
    rw [heq] at haw
    exact absurd haw (by decide)
  have h2 : (['='] : List Char).filter (fun c => decide (c ≠ '=')) = [] := by
    decide
  rw [h1, h2, List.append_nil]

theorem cleanKey_inj_shape {k1 k2 : String}
    (h1 : ∃ w, w ≠ [] ∧ w.all isWordChar = true ∧ k1 = String.mk (w ++ ['=']))
    (h2 : ∃ w, w ≠ [] ∧ w.all isWordChar = true ∧ k2 = String.mk (w ++ ['=']))
    (h : cleanKey k1 = cleanKey k2) : k1 = k2 := by
  obtain ⟨w1, -, hw1, rfl⟩ := h1
  obtain ⟨w2, -, hw2, rfl⟩ := h2
  rw [cleanKey_shape w1 hw1, cleanKey_shape w2 hw2] at h
  obtain rfl : w1 = w2 := congrArg String.data h
  rfl

theorem lookupStr_map_clean :
    ∀ (c : List (String × String)) (kRaw : String),
      (∀ q ∈ c, ∃ w, w ≠ [] ∧ w.all isWordChar = true ∧
        q.1 = String.mk (w ++ ['='])) →
      (∃ w, w ≠ [] ∧ w.all isWordChar = true ∧
        kRaw = String.mk (w ++ ['='])) →
      lookupStr (c.map fun q => (cleanKey q.1, cleanVal q.2)) (cleanKey kRaw) =
        (lookupStr c kRaw).map cleanVal := by
  intro c
  induction c with
  | nil => intro kRaw _ _; rfl
  | cons q rest ih =>
    intro kRaw hall hk
    rw [List.map_cons, lookupStr_cons, lookupStr_cons]
    by_cases hq : q.1 = kRaw
    · rw [if_pos (show (cleanKey q.1, cleanVal q.2).1 = cleanKey kRaw from
        by rw [hq]), if_pos hq]
      rfl
    · have hcq : ¬ ((cleanKey q.1, cleanVal q.2).1 = cleanKey kRaw) :=
        fun hc => hq (cleanKey_inj_shape (hall q (List.mem_cons_self q rest))
          hk hc)
      rw [if_neg hcq, if_neg hq,
        ih kRaw (fun r hr => hall r (List.mem_cons_of_mem q hr)) hk]

theorem mem_updateAssoc_key :
    ∀ (c : List (String × String)) (kv q : String × String),
      q ∈ updateAssoc c kv → q.1 = kv.1 ∨ q.1 ∈ c.map Prod.fst := by
  intro c
  induction c with
  | nil =>
    intro kv q hq
    obtain rfl : q = kv := by simpa [updateAssoc] using hq
    exact Or.inl rfl
  | cons p rest ih =>
    intro kv q hq
    unfold updateAssoc at hq
    split at hq
    case isTrue hp =>
      rcases List.mem_cons.mp hq with rfl | hmem
      · right
        rw [List.map_cons]
        exact List.mem_cons_self _ _
      · right
        rw [List.map_cons]
        exact List.mem_cons_of_mem _ (List.mem_map_of_mem _ hmem)
    case isFalse hp =>
      rcases List.mem_cons.mp hq with rfl | hmem
      · right
        rw [List.map_cons]
        exact List.mem_cons_self _ _
      · rcases ih kv q hmem with h | h
        · exact Or.inl h
        · right
          rw [List.map_cons]
          exact List.mem_cons_of_mem _ h

theorem mem_dictOfPairs_key :
    ∀ (ps acc : List (String × String)) (q : String × String),
      q ∈ ps.foldl updateAssoc acc →
      q.1 ∈ acc.map Prod.fst ∨ q.1 ∈ ps.map Prod.fst := by
  intro ps
  induction ps with
  | nil =>
    intro acc q hq
    exact Or.inl (List.mem_map_of_mem _ hq)
  | cons p rest ih =>
    intro acc q hq
    rw [List.foldl_cons] at hq
    rcases ih (updateAssoc acc p) q hq with h | h
    · obtain ⟨q2, hq2, hq1⟩ := List.mem_map.mp h
      rcases mem_updateAssoc_key acc p q2 hq2 with h1 | h1
    -- sub-bullets resolved below
      · right
        rw [List.map_cons, ← hq1, h1]
        exact List.mem_cons_self _ _
      · left
        rw [← hq1]
        exact h1
    · right
      rw [List.map_cons]
      exact List.mem_cons_of_mem _ h

theorem keys_updateAssoc :
    ∀ (c : List (String × String)) (kv : String × String),
      (updateAssoc c kv).map Prod.fst =
        if kv.1 ∈ c.map Prod.fst then c.map Prod.fst
        else c.map Prod.fst ++ [kv.1] := by
  intro c
  induction c with
  | nil => intro kv; simp [updateAssoc]
  | cons p rest ih =>
    intro kv
    show (if p.1 = kv.1 then (p.1, kv.2) :: rest
      else p :: updateAssoc rest kv).map Prod.fst = _
    by_cases hp : p.1 = kv.1
    · rw [if_pos hp,
        if_pos (by rw [List.map_cons, ← hp]; exact List.mem_cons_self _ _)]
      rw [List.map_cons, List.map_cons]
    · rw [if_neg hp, List.map_cons, ih kv, List.map_cons]
      by_cases hk : kv.1 ∈ rest.map Prod.fst
      · rw [if_pos hk, if_pos (List.mem_cons_of_mem _ hk)]
      · rw [if_neg hk, if_neg (by
          intro hmem
          rcases List.mem_cons.mp hmem with h | h
          · exact hp h.symm
          · exact hk h)]
        rw [List.cons_append]

theorem keys_dict_nodup :
    ∀ (ps acc : List (String × String)), (acc.map Prod.fst).Nodup →
      ((ps.foldl updateAssoc acc).map Prod.fst).Nodup := by
  intro ps
  induction ps with
  | nil => intro acc h; exact h
  | cons p rest ih =>
    intro acc h
    rw [List.foldl_cons]
    apply ih
    rw [keys_updateAssoc]
    by_cases hk : p.1 ∈ acc.map Prod.fst
    · rw [if_pos hk]; exact h
    · rw [if_neg hk]
      rw [List.nodup_append]
      exact ⟨h, List.nodup_singleton _, by
        rw [List.disjoint_singleton]; exact hk⟩

/-- Every key of the raw last-wins dictionary has the `KEY=` shape. -/
theorem dict_key_shape (d : String) :
    ∀ x ∈ ((dictOfPairs (splitPairs d.data)).map Prod.fst),
      ∃ w, w ≠ [] ∧ w.all isWordChar = true ∧ x = String.mk (w ++ ['=']) := by
  intro x hx
  obtain ⟨q, hq, rfl⟩ := List.mem_map.mp hx
  rcases mem_dictOfPairs_key (splitPairs d.data) [] q hq with h0 | h1
  · simp at h0
  · obtain ⟨p, hp, hpq⟩ := List.mem_map.mp h1
    obtain ⟨w, hw1, hw2, hw3⟩ :=
      splitPairs_key_shape d.data.length d.data (le_refl _) p hp
    exact ⟨w, hw1, hw2, by rw [← hpq, hw3]⟩

/-- C10: within one line's details, `re.split` keeps every `KEY=`
occurrence, `dict(zip(..))` collapses duplicates with the LAST
occurrence winning, and key cleaning (`=`-removal) is injective on the
`KEY=` tokens — so the parsed record's keys are unique and each raw key
maps to the cleaned value of its last occurrence. -/
theorem claim10_duplicate_keys (line t c d : String)
    (h : parse_line line = some (t, c, d)) :
    parseRecord line =
      some { timestamp := t, log_type := c, pairs := detailsDict d } ∧
    ((detailsDict d).map Prod.fst).Nodup ∧
    ∀ kRaw ∈ (splitPairs d.data).map Prod.fst,
      lookupStr (detailsDict d) (cleanKey kRaw) =
        (((splitPairs d.data).filter fun p => p.1 = kRaw).getLast?).map
          fun p => cleanVal p.2 := by
  refine ⟨?_, ?_, ?_⟩
  · unfold parseRecord
    rw [h]
    rfl
  · unfold detailsDict
    have hkeys : ((dictOfPairs (splitPairs d.data)).map
        fun p => (cleanKey p.1, cleanVal p.2)).map Prod.fst =
        ((dictOfPairs (splitPairs d.data)).map Prod.fst).map cleanKey := by
      rw [List.map_map, List.map_map]
      rfl
    rw [hkeys]
    refine List.Nodup.map_on ?_ ?_
    · intro x hx y hy hxy
      exact cleanKey_inj_shape (dict_key_shape d x hx) (dict_key_shape d y hy)
        hxy
    · exact keys_dict_nodup (splitPairs d.data) [] (by simp)
  · intro kRaw hkRaw
    obtain ⟨p0, hp0, hp0k⟩ := List.mem_map.mp hkRaw
    obtain ⟨w, hw1, hw2, hw3⟩ :=
      splitPairs_key_shape d.data.length d.data (le_refl _) p0 hp0
    have hkshape : ∃ w, w ≠ [] ∧ w.all isWordChar = true ∧
        kRaw = String.mk (w ++ ['=']) := ⟨w, hw1, hw2, by rw [← hp0k, hw3]⟩
    unfold detailsDict
    rw [lookupStr_map_clean (dictOfPairs (splitPairs d.data)) kRaw
      (fun q hq => dict_key_shape d q.1 (List.mem_map_of_mem _ hq)) hkshape,
      lookupStr_dictOfPairs, Option.map_map]
    rfl

def c10line : String := "2024/01/02 03:04:05.123456,[E],A=1 A=2"

/-- Closed instance of `claim10_duplicate_keys` at a line whose details
repeat the key `A=`. -/
theorem claim10_witness :
    parse_line c10line = some ("2024/01/02 03:04:05.123456", "E", "A=1 A=2") ∧
    (parseRecord c10line =
      some ⟨"2024/01/02 03:04:05.123456", "E", detailsDict "A=1 A=2"⟩ ∧
     ((detailsDict "A=1 A=2").map Prod.fst).Nodup ∧
     ∀ kRaw ∈ (splitPairs ("A=1 A=2").data).map Prod.fst,
       lookupStr (detailsDict "A=1 A=2") (cleanKey kRaw) =
         (((splitPairs ("A=1 A=2").data).filter
           fun p => p.1 = kRaw).getLast?).map fun p => cleanVal p.2) :=
  ⟨by decide, claim10_duplicate_keys c10line "2024/01/02 03:04:05.123456" "E"
    "A=1 A=2" (by decide)⟩

end LogAnalyzer
